import Mathlib

/-!
Verification of the operation-history tree, code-context manager and agent-loop
parsing/submission logic of the `debugmaster` repository.

The Python sources are shallowly embedded: mutable object graphs become an
arena (`List OperationNode`) indexed by `Nat`, object identity becomes
index equality, and in-place mutation becomes functional state update.
Python loops that walk `parent` pointers are given explicit fuel
(`arena.length`); on every well-formed tree the fuel is sufficient, which is
proved where it matters.
-/

namespace DebugMaster

/-- `ActionProperty` enum (action_manager.py). -/
inductive ActionProperty
  | exploitative
  | exploratory
deriving DecidableEq, Repr

/-- `ActionObservation` dataclass (action_manager.py). -/
structure ActionObservation where
  action : String
  observation : String
deriving DecidableEq, Repr

/-- `CodeChunk` dataclass (code_context_manager.py). -/
structure CodeChunk where
  file_path : String
  class_name : String
  function : String
  whole_function : Bool
  lines : List Nat
  eof : Bool := false
deriving DecidableEq, Repr

/-- `OperationNode` dataclass (action_manager.py).  `parent`, `children` and
`invalid_ops` hold arena indices.  The `tool_status : dict[str, Any]` field is
omitted: its values are dynamically typed opaque data and nothing below
depends on it. -/
structure OperationNode where
  thoughts : String := ""
  action : String := ""
  action_property : Option ActionProperty := none
  observations : List ActionObservation := []
  summary : String := ""
  valid : Option Bool := none
  lessons : String := ""
  dead_path_summaries : List String := []
  code_chunks : List CodeChunk := []
  code_change : String := ""
  dead_path : Bool := false
  invalid_ops : List Nat := []
  parent : Option Nat := none
  children : List Nat := []
deriving DecidableEq, Repr

instance : Inhabited OperationNode := ⟨{}⟩

/-- `ActionManager` state (action_manager.py).  The sentinel is the node at
index 0, created by `__init__`; `root` always denotes it. -/
structure ActionManager where
  arena : List OperationNode
  root : Nat := 0
  current : Nat := 0
  max_invalid : Nat := 3
  all_nodes : List Nat := []
  temp_node : Option Nat := none
deriving DecidableEq, Repr

namespace ActionManager

/-- `ActionManager.__init__`: a fresh sentinel, `current` pointing at it. -/
def init (max_invalid : Nat := 3) : ActionManager :=
  { arena := [{}], max_invalid := max_invalid }

/-- Dereference an arena index (out-of-range yields the default node; every
index the code manufactures is in range). -/
def node (m : ActionManager) (i : Nat) : OperationNode :=
  m.arena.getD i {}

/-- In-place mutation of one node, as functional update of the arena. -/
def setNode (m : ActionManager) (i : Nat) (f : OperationNode → OperationNode) :
    ActionManager :=
  { m with arena := m.arena.set i (f (m.node i)) }

/-- `has_pending_node` property. -/
def has_pending_node (m : ActionManager) : Bool :=
  m.temp_node.isSome

/-- `has_real_current` property (`current is not self._sentinel`). -/
def has_real_current (m : ActionManager) : Bool :=
  decide (m.current ≠ 0)

/-- `active_node` property (`self._temp_node or (self.current if ... else None)`). -/
def active_node (m : ActionManager) : Option Nat :=
  match m.temp_node with
  | some t => some t
  | none => if m.current ≠ 0 then some m.current else none

/-- `create_temp_node`: makes a fresh node, records it in `_all_nodes`, and
unconditionally installs it as `_temp_node` (the source performs no
pending-node check).  Returns the updated manager and the new node's id. -/
def create_temp_node (m : ActionManager) (thoughts action : String)
    (action_property : Option ActionProperty) : ActionManager × Nat :=
  let id := m.arena.length
  let n : OperationNode :=
    { thoughts := thoughts, action := action, action_property := action_property }
  ({ m with
      arena := m.arena ++ [n]
      temp_node := some id
      all_nodes := m.all_nodes ++ [id] }, id)

/-- `commit_admissible`: link temp node as child of current, make it current. -/
def commit_admissible (m : ActionManager) : ActionManager :=
  match m.temp_node with
  | none => m
  | some t =>
    let m1 := m.setNode t (fun n => { n with parent := some m.current })
    let m2 := m1.setNode m1.current (fun n => { n with children := n.children ++ [t] })
    { m2 with current := t, temp_node := none }

/-- `commit_invalid`: append temp node to `current.invalid_ops`; returns the
overflow flag `len(current.invalid_ops) >= max_invalid` evaluated after the
append. -/
def commit_invalid (m : ActionManager) : ActionManager × Bool :=
  match m.temp_node with
  | none => (m, false)
  | some t =>
    let m1 := m.setNode t (fun n => { n with parent := some m.current })
    let m2 := m1.setNode m1.current (fun n => { n with invalid_ops := n.invalid_ops ++ [t] })
    ({ m2 with temp_node := none },
      decide (m2.max_invalid ≤ ((m2.node m2.current).invalid_ops).length))

/-- `set_observation`: mutate the temp node; no-op without one. -/
def set_observation (m : ActionManager) (observations : List ActionObservation) :
    ActionManager :=
  match m.temp_node with
  | none => m
  | some t => m.setNode t (fun n => { n with observations := observations })

/-- `set_reflection`: mutate the temp node; no-op without one. -/
def set_reflection (m : ActionManager) (valid : Bool) (lessons : String)
    (summary : String := "") : ActionManager :=
  match m.temp_node with
  | none => m
  | some t =>
    m.setNode t (fun n => { n with valid := some valid, lessons := lessons, summary := summary })

/-- Loop of `find_backtrack_target` (`while node and node is not self._sentinel`),
with explicit fuel.  The parent chain of every node the code builds strictly
decreases, so `arena.length` fuel always reaches the sentinel or `None`. -/
def findBacktrackAux (m : ActionManager) : Nat → Option Nat → Option Nat
  | _, none => none
  | 0, some _ => none
  | fuel + 1, some i =>
    if i = 0 then none
    else if (m.node i).action_property = some .exploratory then some i
    else m.findBacktrackAux fuel (m.node i).parent

/-- `find_backtrack_target`: closest EXPLORATORY ancestor of `current`'s parent. -/
def find_backtrack_target (m : ActionManager) : Option Nat :=
  m.findBacktrackAux m.arena.length (m.node m.current).parent

/-- Loop of `backtrack_to` (`while node and node.parent is not target`), with
explicit fuel: returns the ancestor of the start node whose parent is
`target`, if the walk finds one. -/
def backtrackWalkAux (m : ActionManager) (target : Nat) :
    Nat → Option Nat → Option Nat
  | _, none => none
  | 0, some _ => none
  | fuel + 1, some i =>
    if (m.node i).parent = some target then some i
    else m.backtrackWalkAux target fuel (m.node i).parent

/-- `backtrack_to`: mark the child of `target` on the dead path, append the
summary to `target`, set `current := target`. -/
def backtrack_to (m : ActionManager) (target : Nat) (dead_path_summary : String) :
    ActionManager :=
  let hit := m.backtrackWalkAux target m.arena.length (some m.current)
  let m1 := match hit with
    | some i => m.setNode i (fun n => { n with dead_path := true })
    | none => m
  let m2 := m1.setNode target
    (fun n => { n with dead_path_summaries := n.dead_path_summaries ++ [dead_path_summary] })
  { m2 with current := target }

/-- Loop of `get_path_to`: collect ancestors up to (excluding) the sentinel,
root-first.  The Python code appends then reverses; the recursion below
produces the same list. -/
def pathToAux (m : ActionManager) : Nat → Option Nat → List Nat
  | _, none => []
  | 0, some _ => []
  | fuel + 1, some i =>
    if i = 0 then []
    else m.pathToAux fuel (m.node i).parent ++ [i]

/-- `get_path_to`. -/
def get_path_to (m : ActionManager) (target : Nat) : List Nat :=
  m.pathToAux m.arena.length (some target)

/-- `get_path_from_root_to_current`. -/
def get_path_from_root_to_current (m : ActionManager) : List Nat :=
  if m.current = 0 then [] else m.get_path_to m.current

/-- `[c for c in node.children if not c.dead_path]`. -/
def liveChildren (m : ActionManager) (i : Nat) : List Nat :=
  (m.node i).children.filter (fun c => !(m.node c).dead_path)

/-- One step of the `get_reasoning_chain` descent: first live child that has
children (of any liveness), else the last live child, else stop. -/
def chainNext (m : ActionManager) (i : Nat) : Option Nat :=
  let live := m.liveChildren i
  let withKids := live.filter (fun c => !(m.node c).children.isEmpty)
  match withKids with
  | c :: _ => some c
  | [] => live.getLast?

/-- The `while node:` descent of `get_reasoning_chain`, with fuel.  On every
tree the code builds, children have strictly larger indices than their
parents, so `arena.length` fuel never runs out. -/
def chainDescend (m : ActionManager) : Nat → Nat → List Nat
  | 0, i => [i]
  | fuel + 1, i =>
    i :: (match m.chainNext i with
          | some c => m.chainDescend fuel c
          | none => [])

/-- `get_reasoning_chain`.  The final membership test `current not in chain`
is index equality (object identity). -/
def get_reasoning_chain (m : ActionManager) : List Nat :=
  match m.liveChildren 0 with
  | [] => []
  | r :: _ =>
    let chain := m.chainDescend m.arena.length r
    if m.current ≠ 0 ∧ m.current ∉ chain then chain ++ [m.current] else chain

/-- `get_rejected_actions`: concatenation of `invalid_ops` along the
root-to-current path. -/
def get_rejected_actions (m : ActionManager) : List Nat :=
  (m.get_path_from_root_to_current).foldl (fun acc i => acc ++ (m.node i).invalid_ops) []

/-! Basic state-update lemmas for the arena embedding. -/

@[simp] theorem arena_length_setNode (m : ActionManager) (i : Nat) (f) :
    (m.setNode i f).arena.length = m.arena.length := by
  simp [setNode]

@[simp] theorem current_setNode (m : ActionManager) (i : Nat) (f) :
    (m.setNode i f).current = m.current := rfl

@[simp] theorem temp_setNode (m : ActionManager) (i : Nat) (f) :
    (m.setNode i f).temp_node = m.temp_node := rfl

@[simp] theorem max_invalid_setNode (m : ActionManager) (i : Nat) (f) :
    (m.setNode i f).max_invalid = m.max_invalid := rfl

theorem node_setNode_self (m : ActionManager) (i : Nat) (f)
    (h : i < m.arena.length) : (m.setNode i f).node i = f (m.node i) := by
  simp [setNode, node, List.getD_eq_getElem?_getD, List.getElem?_set_self', h,
    List.getElem?_eq_getElem]

theorem node_setNode_other (m : ActionManager) (i j : Nat) (f)
    (h : j ≠ i) : (m.setNode i f).node j = m.node j := by
  simp [setNode, node, List.getD_eq_getElem?_getD, List.getElem?_set_ne (Ne.symm h)]

theorem node_append_lt (m : ActionManager) (n : OperationNode) (j : Nat)
    (h : j < m.arena.length) :
    (List.getD (m.arena ++ [n]) j {}) = m.node j := by
  simp [node, List.getD_eq_getElem?_getD, List.getElem?_append, h]

theorem node_append_self (m : ActionManager) (n : OperationNode) :
    (List.getD (m.arena ++ [n]) m.arena.length {}) = n := by
  simp [List.getD_eq_getElem?_getD]

/-! ### Claim C1: the reasoning-chain descent rule

`reasoningChainSpecC1` transcribes the spec sentence for C1: descend into the
first live child that itself has **live** children, else the last live child.
The source instead descends into the first live child that has **any**
children (`if c.children`, dead or not); `reasoningChainC1Amended` transcribes
that amended wording.  The final append of `current` is read, in both, as
applying to a real (non-sentinel) `current`. -/

/-- Descent step as the C1 spec sentence states it: prefer the first live
child that itself has live children. -/
def chainNextSpecC1 (m : ActionManager) (i : Nat) : Option Nat :=
  let live := m.liveChildren i
  let withLiveKids := live.filter (fun c => !(m.liveChildren c).isEmpty)
  match withLiveKids with
  | c :: _ => some c
  | [] => live.getLast?

/-- Descent loop under the C1 spec rule. -/
def chainDescendSpecC1 (m : ActionManager) : Nat → Nat → List Nat
  | 0, i => [i]
  | fuel + 1, i =>
    i :: (match m.chainNextSpecC1 i with
          | some c => m.chainDescendSpecC1 fuel c
          | none => [])

/-- The reasoning chain as the C1 spec sentence states it. -/
def reasoningChainSpecC1 (m : ActionManager) : List Nat :=
  match m.liveChildren 0 with
  | [] => []
  | r :: _ =>
    let chain := m.chainDescendSpecC1 m.arena.length r
    if m.current ≠ 0 ∧ m.current ∉ chain then chain ++ [m.current] else chain

/-- Descent step under the amended C1 wording: prefer the first live child
that has any children at all. -/
def chainNextC1Amended (m : ActionManager) (i : Nat) : Option Nat :=
  let live := m.liveChildren i
  let withAnyKids := live.filter (fun c => !(m.node c).children.isEmpty)
  match withAnyKids with
  | c :: _ => some c
  | [] => live.getLast?

/-- Descent loop under the amended C1 wording. -/
def chainDescendC1Amended (m : ActionManager) : Nat → Nat → List Nat
  | 0, i => [i]
  | fuel + 1, i =>
    i :: (match m.chainNextC1Amended i with
          | some c => m.chainDescendC1Amended fuel c
          | none => [])

/-- The reasoning chain under the amended C1 wording. -/
def reasoningChainC1Amended (m : ActionManager) : List Nat :=
  match m.liveChildren 0 with
  | [] => []
  | r :: _ =>
    let chain := m.chainDescendC1Amended m.arena.length r
    if m.current ≠ 0 ∧ m.current ∉ chain then chain ++ [m.current] else chain

end ActionManager

/-- A concrete tree on which the source descent and the C1 spec descent
disagree: node 1 (the only live root) has live children 2 and 3; node 2's
only child 4 is dead, node 3 is a childless leaf; `current` is node 2. -/
def cexC1 : ActionManager :=
  { arena :=
      [ { children := [1] },
        { children := [2, 3] },
        { children := [4] },
        {},
        { dead_path := true } ]
    current := 2
    all_nodes := [1, 2, 3, 4] }

/-- C1 counterexample: on `cexC1` the code picks child 2 (it has a child,
albeit dead) and stops there, producing `[1, 2]`; the spec rule sees no live
child with live children, takes the last live child 3, and then appends
`current`, producing `[1, 3, 2]`. -/
theorem c1_counterexample :
    cexC1.get_reasoning_chain = [1, 2] ∧
    cexC1.reasoningChainSpecC1 = [1, 3, 2] ∧
    cexC1.get_reasoning_chain ≠ cexC1.reasoningChainSpecC1 := by decide

/-- C1 (amended): for every tree state, `get_reasoning_chain` starts at the
first non-dead child of the root sentinel and repeatedly descends — into the
first live child having **any** children if one exists, else into the last
live child, stopping at a node with no live children — and finally appends a
real `current` not already on the chain. -/
theorem c1_amended_reasoning_chain (m : ActionManager) :
    m.get_reasoning_chain = m.reasoningChainC1Amended := by
  have h : ∀ fuel i, m.chainDescend fuel i = m.chainDescendC1Amended fuel i := by
    intro fuel
    induction fuel with
    | zero => intro i; rfl
    | succ n ih =>
      intro i
      have hstep : m.chainNext i = m.chainNextC1Amended i := rfl
      simp only [ActionManager.chainDescend, ActionManager.chainDescendC1Amended, ← hstep]
      cases m.chainNext i with
      | none => rfl
      | some c => simp [ih]
  simp only [ActionManager.get_reasoning_chain, ActionManager.reasoningChainC1Amended, h]

/-! ### Claim C4: double `create_temp_node` -/

/-- C4 counterexample: with a temp node already pending (`some 1`), a second
`create_temp_node` does not fail; it silently installs the new node
(`some 2`) as the pending one. -/
theorem c4_counterexample :
    (((ActionManager.init 3).create_temp_node "t" "a" none).1.temp_node = some 1) ∧
    ((((ActionManager.init 3).create_temp_node "t" "a" none).1.create_temp_node
        "u" "b" none).1.temp_node = some 2) ∧
    (((ActionManager.init 3).create_temp_node "t" "a" none).1.create_temp_node
        "u" "b" none).1.temp_node ≠ some 1 := by decide

/-- C4 (amended): calling `create_temp_node` while a temp node is pending
does not fail with any error; it replaces the pending temp node with the
newly created node (the old node stays only in `_all_nodes`). -/
theorem c4_amended_create_temp_replaces (m : ActionManager) (t : Nat)
    (_h : m.temp_node = some t) (ht : t < m.arena.length)
    (thoughts action : String) (p : Option ActionProperty) :
    ((m.create_temp_node thoughts action p).1.temp_node = some m.arena.length) ∧
    ((m.create_temp_node thoughts action p).2 = m.arena.length) ∧
    ((m.create_temp_node thoughts action p).1.temp_node ≠ some t) ∧
    ((m.create_temp_node thoughts action p).1.all_nodes = m.all_nodes ++ [m.arena.length]) ∧
    ((m.create_temp_node thoughts action p).1.arena.length = m.arena.length + 1) := by
  refine ⟨rfl, rfl, ?_, rfl, by simp [ActionManager.create_temp_node]⟩
  intro hEq
  have hx : m.arena.length = t := by
    simpa [ActionManager.create_temp_node] using hEq
  exact absurd hx (Nat.ne_of_gt ht)

/-- Witness for `c4_amended_create_temp_replaces` at a concrete state. -/
theorem c4_amended_witness :
    ((((ActionManager.init 3).create_temp_node "t" "a" none).1.create_temp_node
        "u" "b" none).1.temp_node =
      some ((ActionManager.init 3).create_temp_node "t" "a" none).1.arena.length) := by
  exact (c4_amended_create_temp_replaces
    (((ActionManager.init 3).create_temp_node "t" "a" none).1) 1 rfl (by decide)
    "u" "b" none).1

/-! ### Claim C7: `commit_invalid` -/

/-- Concrete state for the C7 scenario: `max_invalid = 2`, one committed node
A (id 1, the current node), and a fresh pending temp node (id 2). -/
def c7State : ActionManager :=
  ((((ActionManager.init 2).create_temp_node "A" "a" none).1.commit_admissible).create_temp_node
    "n1" "x" none).1

/-- C7 counterexample: two literally consecutive `commit_invalid` calls (no
temp node recreated in between) return `false` twice and leave
`A.invalid_ops` with length 1 — not `false` then `true` with length 2 as the
claim's scenario states, because the second call is a no-op without a pending
temp node. -/
theorem c7_counterexample :
    (c7State.commit_invalid.2 = false) ∧
    ((c7State.commit_invalid.1.commit_invalid).2 = false) ∧
    (((c7State.commit_invalid.1.commit_invalid).1.node 1).invalid_ops.length = 1) ∧
    ((c7State.commit_invalid.1.commit_invalid).1.current = 1) := by decide

/-- C7 (amended): whenever a temp node exists, `commit_invalid` appends it to
`current.invalid_ops`, clears the temp node, and returns true iff
`|current.invalid_ops| ≥ max_invalid` afterwards; and with `max_invalid = 2`
and committed node A current, two `commit_invalid` calls **each preceded by
`create_temp_node`** return false then true, leave `A.invalid_ops` with
length 2 and `current = A`. -/
theorem c7_commit_invalid (m : ActionManager) (t : Nat)
    (h : m.temp_node = some t) (hlt : m.current < m.arena.length) :
    ((m.commit_invalid.1.node m.current).invalid_ops
        = (m.node m.current).invalid_ops ++ [t] ∧
      m.commit_invalid.1.temp_node = none ∧
      (m.commit_invalid.2 = true ↔
        m.max_invalid ≤ (m.node m.current).invalid_ops.length + 1)) ∧
    ((c7State.commit_invalid.2 = false) ∧
      (((c7State.commit_invalid.1.create_temp_node "n2" "y" none).1.commit_invalid).2 = true) ∧
      ((((c7State.commit_invalid.1.create_temp_node "n2" "y" none).1.commit_invalid).1.node
          ((c7State.commit_invalid.1.create_temp_node "n2" "y" none).1.commit_invalid.1.current)).invalid_ops.length = 2) ∧
      (((c7State.commit_invalid.1.create_temp_node "n2" "y" none).1.commit_invalid).1.current = 1)) := by
  have hm1len : m.current
      < (m.setNode t fun n => { n with parent := some m.current }).arena.length := by
    simpa using hlt
  have hinv : (((m.setNode t fun n => { n with parent := some m.current }).setNode m.current
      fun n => { n with invalid_ops := n.invalid_ops ++ [t] }).node m.current).invalid_ops
      = (m.node m.current).invalid_ops ++ [t] := by
    rw [ActionManager.node_setNode_self _ m.current _ hm1len]
    by_cases hc : m.current = t
    · subst hc
      rw [ActionManager.node_setNode_self _ _ _ hlt]
    · rw [ActionManager.node_setNode_other _ _ _ _ hc]
  constructor
  · refine ⟨?_, ?_, ?_⟩
    · simpa only [ActionManager.commit_invalid, h, ActionManager.current_setNode]
        using hinv
    · simp [ActionManager.commit_invalid, h]
    · have h2 : m.commit_invalid.2
          = decide (m.max_invalid ≤ ((m.node m.current).invalid_ops.length + 1)) := by
        simp only [ActionManager.commit_invalid, h, ActionManager.current_setNode,
          ActionManager.max_invalid_setNode]
        rw [decide_eq_decide]
        rw [hinv]
        simp
      rw [h2]
      simp
  · exact ⟨by decide, by decide, by decide, by decide⟩

/-- Witness for `c7_commit_invalid` at the concrete scenario state. -/
theorem c7_witness :
    (c7State.temp_node = some 2) ∧
    (c7State.commit_invalid.1.temp_node = none) := by
  exact ⟨by decide, (c7_commit_invalid c7State 2 (by decide) (by decide)).1.2.1⟩

/-! ### Claim C5: reasoning-chain invariants over reachable states

The proof follows the shape of the code: every reachable manager carries a
*spine* — the strictly increasing list of node ids from the sentinel's single
live child down to `current`, such that at every level all siblings off the
spine are dead.  `get_reasoning_chain` is then shown to compute exactly the
spine. -/

namespace ActionManager

/-- Last element of a list with a default, as a fold (so that `cons` and
`append` laws are definitional). -/
def lastD (p : List Nat) (a : Nat) : Nat :=
  p.foldl (fun _ x => x) a

@[simp] theorem lastD_nil (a : Nat) : lastD [] a = a := rfl

@[simp] theorem lastD_cons (c : Nat) (rest : List Nat) (a : Nat) :
    lastD (c :: rest) a = lastD rest c := rfl

theorem lastD_append (xs ys : List Nat) (a : Nat) :
    lastD (xs ++ ys) a = lastD ys (lastD xs a) := by
  simp [lastD, List.foldl_append]

@[simp] theorem lastD_concat (xs : List Nat) (c a : Nat) :
    lastD (xs ++ [c]) a = c := by
  simp [lastD_append]

theorem lastD_mem (p : List Nat) (a : Nat) (h : p ≠ []) : lastD p a ∈ p := by
  induction p generalizing a with
  | nil => exact absurd rfl h
  | cons c rest ih =>
    by_cases hr : rest = []
    · subst hr; simp [lastD]
    · simp only [lastD_cons]
      exact List.mem_cons_of_mem _ (ih c hr)

/-- `SpineFrom m a p`: `p` is a descending chain of live children starting
under node `a`: each element is a child of the previous one (ids strictly
increasing and in range), is not on a dead path, and all its siblings off the
chain are dead. -/
def SpineFrom (m : ActionManager) : Nat → List Nat → Prop
  | _, [] => True
  | a, c :: rest =>
      c ∈ (m.node a).children ∧ (m.node c).parent = some a ∧
      a < c ∧ c < m.arena.length ∧ (m.node c).dead_path = false ∧
      (∀ d ∈ (m.node a).children, d ≠ c → (m.node d).dead_path = true) ∧
      SpineFrom m c rest

theorem spine_lt {m : ActionManager} {a : Nat} {p : List Nat}
    (hp : SpineFrom m a p) : ∀ i ∈ p, a < i := by
  induction p generalizing a with
  | nil => simp
  | cons c rest ih =>
    obtain ⟨_, _, h3, _, _, _, h7⟩ := hp
    intro i hi
    rcases List.mem_cons.mp hi with rfl | hi
    · exact h3
    · exact lt_trans h3 (ih h7 i hi)

theorem spine_bound {m : ActionManager} {a : Nat} {p : List Nat}
    (hp : SpineFrom m a p) : ∀ i ∈ p, i < m.arena.length := by
  induction p generalizing a with
  | nil => simp
  | cons c rest ih =>
    obtain ⟨_, _, _, h4, _, _, h7⟩ := hp
    intro i hi
    rcases List.mem_cons.mp hi with rfl | hi
    · exact h4
    · exact ih h7 i hi

theorem spine_live {m : ActionManager} {a : Nat} {p : List Nat}
    (hp : SpineFrom m a p) : ∀ i ∈ p, (m.node i).dead_path = false := by
  induction p generalizing a with
  | nil => simp
  | cons c rest ih =>
    obtain ⟨_, _, _, _, h5, _, h7⟩ := hp
    intro i hi
    rcases List.mem_cons.mp hi with rfl | hi
    · exact h5
    · exact ih h7 i hi

theorem spine_le_lastD {m : ActionManager} {a : Nat} {p : List Nat}
    (hp : SpineFrom m a p) : a ≤ lastD p a := by
  by_cases h : p = []
  · subst h; simp
  · exact le_of_lt (spine_lt hp _ (lastD_mem p a h))

theorem spine_length_le {m : ActionManager} {a : Nat} {p : List Nat}
    (hp : SpineFrom m a p) : a + p.length ≤ lastD p a := by
  induction p generalizing a with
  | nil => simp
  | cons c rest ih =>
    obtain ⟨_, _, h3, _, _, _, h7⟩ := hp
    have hc := ih h7
    simp only [lastD_cons, List.length_cons]
    omega

theorem spine_append {m : ActionManager} {a : Nat} (xs ys : List Nat) :
    SpineFrom m a (xs ++ ys) ↔ SpineFrom m a xs ∧ SpineFrom m (lastD xs a) ys := by
  induction xs generalizing a with
  | nil => simp [SpineFrom]
  | cons c rest ih =>
    constructor
    · rintro ⟨h1, h2, h3, h4, h5, h6, h7⟩
      have hr := (ih (a := c)).mp h7
      exact ⟨⟨h1, h2, h3, h4, h5, h6, hr.1⟩, hr.2⟩
    · rintro ⟨⟨h1, h2, h3, h4, h5, h6, h7⟩, h8⟩
      exact ⟨h1, h2, h3, h4, h5, h6, (ih (a := c)).mpr ⟨h7, h8⟩⟩

/-- `SpineFrom` transport: the spine survives any state change that keeps
arena length, keeps the children of every non-terminal spine level, keeps the
parents and liveness of spine elements, and never resurrects a dead node. -/
theorem spine_congr {m m' : ActionManager} {p : List Nat} {a : Nat}
    (hp : SpineFrom m a p)
    (hlen : m.arena.length ≤ m'.arena.length)
    (hdead : ∀ i, (m.node i).dead_path = true → (m'.node i).dead_path = true)
    (hch : ∀ i ∈ a :: p, i ≠ lastD p a → (m'.node i).children = (m.node i).children)
    (hpar : ∀ i ∈ p, (m'.node i).parent = (m.node i).parent)
    (hlive : ∀ i ∈ p, (m'.node i).dead_path = (m.node i).dead_path) :
    SpineFrom m' a p := by
  induction p generalizing a with
  | nil => trivial
  | cons c rest ih =>
    obtain ⟨h1, h2, h3, h4, h5, h6, h7⟩ := hp
    have hane : a ≠ lastD (c :: rest) a := by
      have hc : c ≤ lastD rest c := spine_le_lastD h7
      simp only [lastD_cons]
      omega
    have hcha : (m'.node a).children = (m.node a).children :=
      hch a (List.mem_cons_self _ _) hane
    refine ⟨?_, ?_, h3, lt_of_lt_of_le h4 hlen, ?_, ?_, ?_⟩
    · rw [hcha]; exact h1
    · rw [hpar c (by simp)]; exact h2
    · rw [hlive c (by simp)]; exact h5
    · intro d hd hdc
      rw [hcha] at hd
      exact hdead d (h6 d hd hdc)
    · refine ih h7 ?_ ?_ ?_
      · intro i hi hne
        exact hch i (List.mem_cons_of_mem _ hi) hne
      · intro i hi
        exact hpar i (List.mem_cons_of_mem _ hi)
      · intro i hi
        exact hlive i (List.mem_cons_of_mem _ hi)

/-- The reachability invariant for C5. -/
def Inv (m : ActionManager) : Prop :=
  0 < m.arena.length ∧ m.current < m.arena.length ∧
  (m.node 0).parent = none ∧
  (∀ t, m.temp_node = some t →
    t < m.arena.length ∧ (m.node t).children = [] ∧ (m.node t).dead_path = false ∧
    m.current < t) ∧
  ∃ p : List Nat,
    SpineFrom m 0 p ∧
    lastD p 0 = m.current ∧
    (p = [] → (m.node 0).children = []) ∧
    (∀ d ∈ (m.node m.current).children, (m.node d).dead_path = true)

theorem node_setNode_ge (m : ActionManager) (i : Nat) (f) (j : Nat)
    (h : m.arena.length ≤ i) : (m.setNode i f).node j = m.node j := by
  simp [setNode, node, List.set_eq_of_length_le h]

/-- A `setNode` whose update function keeps `children`, `parent` and
`dead_path` preserves `Inv` (the bookkeeping fields of the manager are
untouched by `setNode`). -/
theorem inv_setNode_plain (m : ActionManager) (i : Nat) (f : OperationNode → OperationNode)
    (hI : Inv m)
    (hch : ∀ n, (f n).children = n.children)
    (hpar : ∀ n, (f n).parent = n.parent)
    (hdp : ∀ n, (f n).dead_path = n.dead_path) :
    Inv (m.setNode i f) := by
  obtain ⟨h1, h2, h3, h4, p, hp, hlast, hemp, hdead⟩ := hI
  have hnode : ∀ j, ((m.setNode i f).node j).children = (m.node j).children ∧
      ((m.setNode i f).node j).parent = (m.node j).parent ∧
      ((m.setNode i f).node j).dead_path = (m.node j).dead_path := by
    intro j
    by_cases hj : j = i
    · subst hj
      by_cases hl : j < m.arena.length
      · rw [node_setNode_self _ _ _ hl]
        exact ⟨hch _, hpar _, hdp _⟩
      · rw [node_setNode_ge _ _ _ _ (le_of_not_lt hl)]
        exact ⟨rfl, rfl, rfl⟩
    · rw [node_setNode_other _ _ _ _ hj]
      exact ⟨rfl, rfl, rfl⟩
  refine ⟨by simpa using h1, by simpa using h2, by rw [(hnode 0).2.1]; exact h3, ?_,
    p, ?_, hlast, ?_, ?_⟩
  · intro t ht
    obtain ⟨ha, hb, hc, hd⟩ := h4 t ht
    refine ⟨by simpa using ha, ?_, ?_, hd⟩
    · rw [(hnode t).1]; exact hb
    · rw [(hnode t).2.2]; exact hc
  · refine spine_congr hp (by simp) ?_ ?_ ?_ ?_
    · intro j hjd
      rw [(hnode j).2.2]; exact hjd
    · intro j _ _
      exact (hnode j).1
    · intro j _
      exact (hnode j).2.1
    · intro j _
      exact (hnode j).2.2
  · intro hpe
    rw [(hnode 0).1]; exact hemp hpe
  · intro d hd
    rw [(hnode d).2.2]
    refine hdead d ?_
    rw [current_setNode, (hnode m.current).1] at hd
    exact hd

/-- `Inv` holds of the initial manager. -/
theorem inv_init (mi : Nat) : Inv (ActionManager.init mi) := by
  refine ⟨by simp [init], by simp [init], by simp [init, node], ?_,
    [], trivial, rfl, ?_, ?_⟩
  · intro t ht
    simp [init] at ht
  · intro _
    simp [init, node]
  · intro d hd
    simp [init, node] at hd

/-- `Inv` is preserved by `set_observation`. -/
theorem inv_set_observation (m : ActionManager) (hI : Inv m)
    (obs : List ActionObservation) : Inv (m.set_observation obs) := by
  cases ht : m.temp_node with
  | none => simpa [set_observation, ht] using hI
  | some t =>
    simp only [set_observation, ht]
    exact inv_setNode_plain m t _ hI (fun _ => rfl) (fun _ => rfl) (fun _ => rfl)

/-- `Inv` is preserved by `set_reflection`. -/
theorem inv_set_reflection (m : ActionManager) (hI : Inv m)
    (v : Bool) (l s : String) : Inv (m.set_reflection v l s) := by
  cases ht : m.temp_node with
  | none => simpa [set_reflection, ht] using hI
  | some t =>
    simp only [set_reflection, ht]
    exact inv_setNode_plain m t _ hI (fun _ => rfl) (fun _ => rfl) (fun _ => rfl)

theorem node_oob (m : ActionManager) (i : Nat) (h : m.arena.length ≤ i) :
    m.node i = {} := by
  simp [node, List.getD_eq_getElem?_getD, List.getElem?_eq_none h]

theorem children_setNode (m : ActionManager) (i : Nat) (f) (j : Nat)
    (hf : ∀ n, (f n).children = n.children) :
    ((m.setNode i f).node j).children = (m.node j).children := by
  by_cases hj : j = i
  · subst hj
    by_cases hl : j < m.arena.length
    · rw [node_setNode_self _ _ _ hl, hf]
    · rw [node_setNode_ge _ _ _ _ (le_of_not_lt hl)]
  · rw [node_setNode_other _ _ _ _ hj]

theorem parent_setNode (m : ActionManager) (i : Nat) (f) (j : Nat)
    (hf : ∀ n, (f n).parent = n.parent) :
    ((m.setNode i f).node j).parent = (m.node j).parent := by
  by_cases hj : j = i
  · subst hj
    by_cases hl : j < m.arena.length
    · rw [node_setNode_self _ _ _ hl, hf]
    · rw [node_setNode_ge _ _ _ _ (le_of_not_lt hl)]
  · rw [node_setNode_other _ _ _ _ hj]

theorem dead_setNode (m : ActionManager) (i : Nat) (f) (j : Nat)
    (hf : ∀ n, (f n).dead_path = n.dead_path) :
    ((m.setNode i f).node j).dead_path = (m.node j).dead_path := by
  by_cases hj : j = i
  · subst hj
    by_cases hl : j < m.arena.length
    · rw [node_setNode_self _ _ _ hl, hf]
    · rw [node_setNode_ge _ _ _ _ (le_of_not_lt hl)]
  · rw [node_setNode_other _ _ _ _ hj]

theorem node_eq_of_arena {m m' : ActionManager} (ha : m'.arena = m.arena) (j : Nat) :
    m'.node j = m.node j := by
  simp [node, ha]

/-- `SpineFrom` only reads the arena, so it transports along arena equality
(in particular to record updates of the other fields). -/
theorem spine_eq_arena {m m' : ActionManager} {a : Nat}
    {p : List Nat} (hp : SpineFrom m a p) (ha : m'.arena = m.arena) : SpineFrom m' a p := by
  refine spine_congr hp (by rw [ha]) ?_ ?_ ?_ ?_
  · intro i hi
    rw [node_eq_of_arena ha]; exact hi
  · intro i _ _
    rw [node_eq_of_arena ha]
  · intro i _
    rw [node_eq_of_arena ha]
  · intro i _
    rw [node_eq_of_arena ha]

theorem spine_mem_le_lastD {m : ActionManager} {a : Nat} {p : List Nat}
    (hp : SpineFrom m a p) : ∀ i ∈ p, i ≤ lastD p a := by
  induction p generalizing a with
  | nil => simp
  | cons c rest ih =>
    obtain ⟨_, _, _, _, _, _, h7⟩ := hp
    intro i hi
    rcases List.mem_cons.mp hi with rfl | hi
    · simpa using spine_le_lastD h7
    · simpa using ih h7 i hi

/-- `Inv` is preserved by `create_temp_node` when no temp node is pending. -/
theorem inv_create_temp (m : ActionManager) (hI : Inv m)
    (thoughts action : String) (pr : Option ActionProperty) :
    Inv (m.create_temp_node thoughts action pr).1 := by
  obtain ⟨h1, h2, h3, h4, p, hp, hlast, hemp, hdead⟩ := hI
  have hnodelt : ∀ j, j < m.arena.length →
      ((m.create_temp_node thoughts action pr).1).node j = m.node j :=
    fun j hj => node_append_lt m _ j hj
  have hnodenew : ((m.create_temp_node thoughts action pr).1).node m.arena.length
      = { thoughts := thoughts, action := action, action_property := pr } :=
    node_append_self m _
  have hlen : ((m.create_temp_node thoughts action pr).1).arena.length
      = m.arena.length + 1 := by
    simp [create_temp_node]
  have hdeadmono : ∀ i, (m.node i).dead_path = true →
      (((m.create_temp_node thoughts action pr).1).node i).dead_path = true := by
    intro i hi
    by_cases hl : i < m.arena.length
    · rw [hnodelt i hl]; exact hi
    · rw [node_oob m i (le_of_not_lt hl)] at hi
      simp at hi
  refine ⟨by omega, by rw [hlen]; exact Nat.lt_succ_of_lt h2, ?_, ?_, p, ?_, hlast, ?_, ?_⟩
  · rw [hnodelt 0 h1]; exact h3
  · intro u hu
    have hu' : u = m.arena.length := by
      have hx := hu
      simp only [create_temp_node, Option.some.injEq] at hx
      omega
    subst hu'
    refine ⟨by omega, ?_, ?_, h2⟩
    · rw [hnodenew]
    · rw [hnodenew]
  · refine spine_congr hp (by omega) hdeadmono ?_ ?_ ?_
    · intro i hi _
      rcases List.mem_cons.mp hi with rfl | hi
      · rw [hnodelt 0 h1]
      · rw [hnodelt i (spine_bound hp i hi)]
    · intro i hi
      rw [hnodelt i (spine_bound hp i hi)]
    · intro i hi
      rw [hnodelt i (spine_bound hp i hi)]
  · intro hpe
    rw [hnodelt 0 h1]; exact hemp hpe
  · intro d hd
    have hcur : ((m.create_temp_node thoughts action pr).1).current = m.current := rfl
    rw [hcur, hnodelt m.current h2] at hd
    have hdm := hdead d hd
    exact hdeadmono d hdm

/-- `Inv` is preserved by `commit_invalid`. -/
theorem inv_commit_invalid (m : ActionManager) (hI : Inv m) :
    Inv m.commit_invalid.1 := by
  cases ht : m.temp_node with
  | none => simpa [commit_invalid, ht] using hI
  | some t =>
    obtain ⟨h1, h2, h3, h4, p, hp, hlast, hemp, hdead⟩ := hI
    obtain ⟨htl, htch, htdp, htgt⟩ := h4 t ht
    have heq : m.commit_invalid.1
        = { (m.setNode t (fun n => { n with parent := some m.current })).setNode
              (m.setNode t (fun n => { n with parent := some m.current })).current
              (fun n => { n with invalid_ops := n.invalid_ops ++ [t] })
            with temp_node := none } := by
      simp only [commit_invalid, ht]
    rw [heq]
    set m1 := m.setNode t (fun n => { n with parent := some m.current }) with hm1
    set m2 := m1.setNode m1.current (fun n => { n with invalid_ops := n.invalid_ops ++ [t] })
      with hm2
    have e2ch : ∀ k, (m2.node k).children = (m1.node k).children := by
      intro k
      refine children_setNode m1 m1.current _ k ?_
      intro n; rfl
    have e1ch : ∀ k, (m1.node k).children = (m.node k).children := by
      intro k
      refine children_setNode m t _ k ?_
      intro n; rfl
    have e2dp : ∀ k, (m2.node k).dead_path = (m1.node k).dead_path := by
      intro k
      refine dead_setNode m1 m1.current _ k ?_
      intro n; rfl
    have e1dp : ∀ k, (m1.node k).dead_path = (m.node k).dead_path := by
      intro k
      refine dead_setNode m t _ k ?_
      intro n; rfl
    have e2par : ∀ k, (m2.node k).parent = (m1.node k).parent := by
      intro k
      refine parent_setNode m1 m1.current _ k ?_
      intro n; rfl
    have hch : ∀ j, (m2.node j).children = (m.node j).children := by
      intro j; rw [e2ch, e1ch]
    have hdp : ∀ j, (m2.node j).dead_path = (m.node j).dead_path := by
      intro j; rw [e2dp, e1dp]
    have hpar : ∀ j, j ≠ t → (m2.node j).parent = (m.node j).parent := by
      intro j hj
      rw [e2par, hm1, node_setNode_other _ _ _ _ hj]
    have hlen : m2.arena.length = m.arena.length := by
      rw [hm2, arena_length_setNode, hm1, arena_length_setNode]
    refine ⟨?_, ?_, ?_, ?_, p, ?_, ?_, ?_, ?_⟩
    · show 0 < m2.arena.length
      rw [hlen]; exact h1
    · show m2.current < m2.arena.length
      rw [hlen]
      exact h2
    · show (m2.node 0).parent = none
      rw [hpar 0 (by omega)]; exact h3
    · intro u hu
      exact absurd (show (none : Option Nat) = some u from hu) (by simp)
    · have hsp : SpineFrom m2 0 p := by
        refine spine_congr hp (by rw [hlen]) ?_ ?_ ?_ ?_
        · intro i hi
          rw [hdp i]; exact hi
        · intro i _ _
          exact hch i
        · intro i hi
          refine hpar i ?_
          have := spine_mem_le_lastD hp i hi
          rw [hlast] at this
          omega
        · intro i _
          exact hdp i
      exact spine_eq_arena hsp rfl
    · show lastD p 0 = m2.current
      exact hlast
    · intro hpe
      show (m2.node 0).children = []
      rw [hch 0]; exact hemp hpe
    · intro d hd
      have hd2 : d ∈ (m2.node m2.current).children := hd
      rw [show m2.current = m.current from rfl, hch m.current] at hd2
      show (m2.node d).dead_path = true
      rw [hdp d]
      exact hdead d hd2

/-- `Inv` is preserved by `commit_admissible`; the spine grows by the
committed temp node. -/
theorem inv_commit_admissible (m : ActionManager) (hI : Inv m) :
    Inv m.commit_admissible := by
  cases ht : m.temp_node with
  | none => simpa [commit_admissible, ht] using hI
  | some t =>
    obtain ⟨h1, h2, h3, h4, p, hp, hlast, hemp, hdead⟩ := hI
    obtain ⟨htl, htch, htdp, htgt⟩ := h4 t ht
    have heq : m.commit_admissible
        = { (m.setNode t (fun n => { n with parent := some m.current })).setNode
              (m.setNode t (fun n => { n with parent := some m.current })).current
              (fun n => { n with children := n.children ++ [t] })
            with current := t, temp_node := none } := by
      simp only [commit_admissible, ht]
    rw [heq]
    set m1 := m.setNode t (fun n => { n with parent := some m.current }) with hm1
    set m2 := m1.setNode m1.current (fun n => { n with children := n.children ++ [t] })
      with hm2
    have hlen1 : m1.arena.length = m.arena.length := by
      rw [hm1, arena_length_setNode]
    have hlen : m2.arena.length = m.arena.length := by
      rw [hm2, arena_length_setNode, hlen1]
    have e2dp : ∀ k, (m2.node k).dead_path = (m1.node k).dead_path := by
      intro k
      refine dead_setNode m1 m1.current _ k ?_
      intro n; rfl
    have e1dp : ∀ k, (m1.node k).dead_path = (m.node k).dead_path := by
      intro k
      refine dead_setNode m t _ k ?_
      intro n; rfl
    have hdpj : ∀ j, (m2.node j).dead_path = (m.node j).dead_path := by
      intro j; rw [e2dp, e1dp]
    have e2par : ∀ k, (m2.node k).parent = (m1.node k).parent := by
      intro k
      refine parent_setNode m1 m1.current _ k ?_
      intro n; rfl
    have hparj : ∀ j, j ≠ t → (m2.node j).parent = (m.node j).parent := by
      intro j hj
      rw [e2par, hm1, node_setNode_other _ _ _ _ hj]
    have hpart : (m2.node t).parent = some m.current := by
      rw [e2par, hm1, node_setNode_self _ _ _ htl]
    have e1ch : ∀ k, (m1.node k).children = (m.node k).children := by
      intro k
      refine children_setNode m t _ k ?_
      intro n; rfl
    have hchj : ∀ j, j ≠ m.current → (m2.node j).children = (m.node j).children := by
      intro j hj
      have step : m2.node j = m1.node j := by
        rw [hm2]
        exact node_setNode_other m1 m1.current j _ hj
      rw [step, e1ch]
    have hchcur : (m2.node m.current).children = (m.node m.current).children ++ [t] := by
      have hlc : m.current < m1.arena.length := by rw [hlen1]; exact h2
      have step : m2.node m.current
          = { (m1.node m.current) with children := (m1.node m.current).children ++ [t] } := by
        rw [hm2]
        exact node_setNode_self m1 m.current _ hlc
      rw [step]
      show (m1.node m.current).children ++ [t] = (m.node m.current).children ++ [t]
      rw [e1ch]
    have hcht : (m2.node t).children = [] := by
      have step : m2.node t = m1.node t := by
        rw [hm2]
        exact node_setNode_other m1 m1.current t _ (show t ≠ m.current by omega)
      rw [step, e1ch t]
      exact htch
    have hsp2 : SpineFrom m2 0 (p ++ [t]) := by
      refine (spine_append p [t]).mpr ⟨?_, ?_⟩
      · refine spine_congr hp (by rw [hlen]) ?_ ?_ ?_ ?_
        · intro i hi
          rw [hdpj i]; exact hi
        · intro i _ hne
          refine hchj i ?_
          rw [← hlast]; exact hne
        · intro i hi
          refine hparj i ?_
          have := spine_mem_le_lastD hp i hi
          rw [hlast] at this
          omega
        · intro i _
          exact hdpj i
      · rw [hlast]
        refine ⟨?_, hpart, htgt, ?_, ?_, ?_, trivial⟩
        · rw [hchcur]
          exact List.mem_append_right _ (List.mem_singleton_self t)
        · rw [hlen]; exact htl
        · rw [hdpj t]; exact htdp
        · intro d hd hdt
          rw [hchcur] at hd
          rcases List.mem_append.mp hd with hdm | hdm
          · rw [hdpj d]
            exact hdead d hdm
          · exact absurd (List.mem_singleton.mp hdm) hdt
    refine ⟨?_, ?_, ?_, ?_, p ++ [t], ?_, ?_, ?_, ?_⟩
    · show 0 < m2.arena.length
      rw [hlen]; exact h1
    · show t < m2.arena.length
      rw [hlen]; exact htl
    · show (m2.node 0).parent = none
      rw [hparj 0 (by omega)]; exact h3
    · intro u hu
      exact absurd (show (none : Option Nat) = some u from hu) (by simp)
    · exact spine_eq_arena hsp2 rfl
    · show lastD (p ++ [t]) 0 = t
      exact lastD_concat p t 0
    · intro hpe
      exact absurd hpe (by simp)
    · intro d hd
      have hd2 : d ∈ (m2.node t).children := hd
      rw [hcht] at hd2
      simp at hd2

/-- The `find_backtrack_target` walk, started at the parent of the spine's
last element, only ever returns a spine element other than the last (and it
is EXPLORATORY). -/
theorem findBacktrack_spine {m : ActionManager} {p : List Nat}
    (hp : SpineFrom m 0 p) (hsp : (m.node 0).parent = none) :
    ∀ fuel tg, m.findBacktrackAux fuel (m.node (lastD p 0)).parent = some tg →
      tg ∈ p.dropLast ∧ (m.node tg).action_property = some ActionProperty.exploratory := by
  induction p using List.reverseRecOn with
  | nil =>
    intro fuel tg htg
    rw [lastD_nil, hsp] at htg
    cases fuel <;> simp [findBacktrackAux] at htg
  | append_singleton q c ihq =>
    intro fuel tg htg
    have hqc := (spine_append q [c]).mp hp
    obtain ⟨hc1, hc2, hc3, hc4, hc5, hc6, -⟩ := hqc.2
    rw [lastD_concat, hc2] at htg
    cases fuel with
    | zero => simp [findBacktrackAux] at htg
    | succ f =>
      by_cases hq : q = []
      · subst hq
        simp [findBacktrackAux] at htg
      · have hb0 : lastD q 0 ≠ 0 := by
          have := spine_lt hqc.1 _ (lastD_mem q 0 hq)
          omega
        rw [List.dropLast_concat]
        simp only [findBacktrackAux] at htg
        rw [if_neg hb0] at htg
        by_cases hexp : (m.node (lastD q 0)).action_property
            = some ActionProperty.exploratory
        · rw [if_pos hexp] at htg
          have htg' : tg = lastD q 0 := by
            simpa using htg.symm
          subst htg'
          exact ⟨lastD_mem q 0 hq, hexp⟩
        · rw [if_neg hexp] at htg
          have := ihq hqc.1 f tg htg
          exact ⟨(List.dropLast_sublist q).subset this.1, this.2⟩

/-- Splitting a list at an element of its `dropLast`: the suffix after the
element is nonempty. -/
theorem split_of_mem_dropLast {p : List Nat} {tg : Nat} (h : tg ∈ p.dropLast) :
    ∃ q r, p = q ++ tg :: r ∧ r ≠ [] := by
  by_cases hp : p = []
  · subst hp; simp at h
  · obtain ⟨q, r', hqr⟩ := List.append_of_mem h
    refine ⟨q, r' ++ [p.getLast hp], ?_, by simp⟩
    conv_lhs => rw [← List.dropLast_append_getLast hp]
    rw [hqr]
    simp

/-- The `backtrack_to` walk from the end of a spine segment hanging off
`tg` stops at the segment's first element (the direct child of `tg`). -/
theorem backtrackWalk_spine {m : ActionManager} {tg c : Nat} :
    ∀ (r : List Nat), SpineFrom m tg (c :: r) → ∀ fuel, (c :: r).length ≤ fuel →
      m.backtrackWalkAux tg fuel (some (lastD (c :: r) tg)) = some c := by
  intro r
  induction r using List.reverseRecOn with
  | nil =>
    intro hsp fuel hfuel
    obtain ⟨-, hc2, -, -, -, -, -⟩ := hsp
    cases fuel with
    | zero => simp at hfuel
    | succ f =>
      simp only [lastD_cons, lastD_nil, backtrackWalkAux]
      rw [if_pos hc2]
  | append_singleton r' e ih =>
    intro hsp fuel hfuel
    have hsp' : SpineFrom m tg ((c :: r') ++ [e]) := by
      simpa using hsp
    have h1 := (spine_append (c :: r') [e]).mp hsp'
    obtain ⟨he1, he2, he3, he4, he5, he6, -⟩ := h1.2
    cases fuel with
    | zero => simp at hfuel
    | succ f =>
      have hlaste : lastD (c :: (r' ++ [e])) tg = e := by
        simp only [lastD_cons]
        exact lastD_concat r' e c
      rw [hlaste]
      simp only [backtrackWalkAux]
      have hprevne : lastD (c :: r') tg ≠ tg := by
        have := spine_lt h1.1 _ (lastD_mem (c :: r') tg (by simp))
        omega
      rw [he2, if_neg (by simpa using hprevne)]
      refine ih h1.1 f ?_
      simp only [List.length_cons, List.length_append] at hfuel ⊢
      omega

/-- `Inv` is preserved by `backtrack_to` on any target actually returned by
`find_backtrack_target`; the spine shrinks to the prefix ending at the
target, whose direct child on the old spine is marked dead. -/
theorem inv_backtrack (m : ActionManager) (hI : Inv m) (tg : Nat)
    (ht : m.find_backtrack_target = some tg) (s : String) :
    Inv (m.backtrack_to tg s) := by
  obtain ⟨h1, h2, h3, h4, p, hp, hlast, hemp, hdead⟩ := hI
  have hstart : (m.node (lastD p 0)).parent = (m.node m.current).parent := by
    rw [hlast]
  have hfb : tg ∈ p.dropLast ∧
      (m.node tg).action_property = some ActionProperty.exploratory := by
    refine findBacktrack_spine hp h3 m.arena.length tg ?_
    rw [hstart]
    exact ht
  obtain ⟨q, r, hpqr, hrne⟩ := split_of_mem_dropLast hfb.1
  cases r with
  | nil => exact absurd rfl hrne
  | cons c r' =>
    have hpsplit : p = (q ++ [tg]) ++ (c :: r') := by
      rw [hpqr]; simp
    have hps := (spine_append (q ++ [tg]) (c :: r')).mp (by rw [← hpsplit]; exact hp)
    have hpq : SpineFrom m 0 (q ++ [tg]) := hps.1
    have hrr : SpineFrom m tg (c :: r') := by
      have := hps.2
      rwa [lastD_concat] at this
    obtain ⟨hc1, hc2, hc3, hc4, hc5, hc6, -⟩ := id hrr
    have htgmem : tg ∈ p := by
      rw [hpqr]; exact List.mem_append_right q (List.mem_cons_self _ _)
    have htglt : tg < m.arena.length := spine_bound hp tg htgmem
    have htgpos : 0 < tg := spine_lt hp tg htgmem
    have htglive : (m.node tg).dead_path = false := spine_live hp tg htgmem
    have hcur_eq : m.current = lastD (c :: r') tg := by
      rw [← hlast, hpsplit, lastD_append, lastD_concat]
    have hcle : c ≤ m.current := by
      rw [hcur_eq]
      exact spine_mem_le_lastD hrr c (List.mem_cons_self _ _)
    have htgcur : tg < m.current := lt_of_lt_of_le hc3 hcle
    have hplen : p.length ≤ m.current := by
      have := spine_length_le hp
      rw [hlast] at this
      omega
    have hhit : m.backtrackWalkAux tg m.arena.length (some m.current) = some c := by
      rw [hcur_eq]
      refine backtrackWalk_spine (c :: r').tail ?_ m.arena.length ?_
      · simpa using hrr
      · have : (c :: r').length ≤ p.length := by
          rw [hpsplit]
          simp only [List.length_append, List.length_cons]
          omega
        simp only [List.tail_cons]
        omega
    have heq : m.backtrack_to tg s
        = { (m.setNode c (fun n => { n with dead_path := true })).setNode tg
              (fun n =>
                { n with dead_path_summaries := n.dead_path_summaries ++ [s] })
            with current := tg } := by
      simp only [backtrack_to, hhit]
    rw [heq]
    set m1 := m.setNode c (fun n => { n with dead_path := true }) with hm1
    set m2 := m1.setNode tg
      (fun n => { n with dead_path_summaries := n.dead_path_summaries ++ [s] }) with hm2
    have hlen1 : m1.arena.length = m.arena.length := by
      rw [hm1, arena_length_setNode]
    have hlen : m2.arena.length = m.arena.length := by
      rw [hm2, arena_length_setNode, hlen1]
    have e2ch : ∀ k, (m2.node k).children = (m1.node k).children := by
      intro k
      refine children_setNode m1 tg _ k ?_
      intro n; rfl
    have e1ch : ∀ k, (m1.node k).children = (m.node k).children := by
      intro k
      refine children_setNode m c _ k ?_
      intro n; rfl
    have hchj : ∀ j, (m2.node j).children = (m.node j).children := by
      intro j; rw [e2ch, e1ch]
    have e2par : ∀ k, (m2.node k).parent = (m1.node k).parent := by
      intro k
      refine parent_setNode m1 tg _ k ?_
      intro n; rfl
    have e1par : ∀ k, (m1.node k).parent = (m.node k).parent := by
      intro k
      refine parent_setNode m c _ k ?_
      intro n; rfl
    have hparj : ∀ j, (m2.node j).parent = (m.node j).parent := by
      intro j; rw [e2par, e1par]
    have e2dp : ∀ k, (m2.node k).dead_path = (m1.node k).dead_path := by
      intro k
      refine dead_setNode m1 tg _ k ?_
      intro n; rfl
    have hdpj : ∀ j, j ≠ c → (m2.node j).dead_path = (m.node j).dead_path := by
      intro j hj
      rw [e2dp, hm1, node_setNode_other _ _ _ _ hj]
    have hdpc : (m2.node c).dead_path = true := by
      rw [e2dp, hm1, node_setNode_self _ _ _ hc4]
    have hdmono : ∀ i, (m.node i).dead_path = true → (m2.node i).dead_path = true := by
      intro i hi
      by_cases hic : i = c
      · subst hic; exact hdpc
      · rw [hdpj i hic]; exact hi
    refine ⟨?_, ?_, ?_, ?_, q ++ [tg], ?_, ?_, ?_, ?_⟩
    · show 0 < m2.arena.length
      rw [hlen]; exact h1
    · show tg < m2.arena.length
      rw [hlen]; exact htglt
    · show (m2.node 0).parent = none
      rw [hparj 0]; exact h3
    · intro u hu
      have hu' : m.temp_node = some u := hu
      obtain ⟨hul, huch, hudp, hugt⟩ := h4 u hu'
      have huc : u ≠ c := by omega
      refine ⟨by rw [hlen]; exact hul, ?_, ?_, by show tg < u; omega⟩
      · show (m2.node u).children = []
        rw [hchj u]; exact huch
      · show (m2.node u).dead_path = false
        rw [hdpj u huc]; exact hudp
    · have hsp2 : SpineFrom m2 0 (q ++ [tg]) := by
        refine spine_congr hpq (by rw [hlen]) hdmono ?_ ?_ ?_
        · intro i _ _
          exact hchj i
        · intro i _
          exact hparj i
        · intro i hi
          have hile : i ≤ tg := by
            have := spine_mem_le_lastD hpq i hi
            rwa [lastD_concat] at this
          refine hdpj i ?_
          omega
      exact spine_eq_arena hsp2 rfl
    · show lastD (q ++ [tg]) 0 = tg
      exact lastD_concat q tg 0
    · intro hpe
      exact absurd hpe (by simp)
    · intro d hd
      have hd2 : d ∈ (m2.node tg).children := hd
      rw [hchj tg] at hd2
      show (m2.node d).dead_path = true
      by_cases hdc : d = c
      · subst hdc; exact hdpc
      · rw [hdpj d hdc]
        exact hc6 d hd2 hdc

/-- States reachable by legal operation sequences: commits (a fresh temp node
followed by `commit_admissible` or `commit_invalid`), observation/reflection
updates, and backtracks to targets returned by `find_backtrack_target`. -/
inductive Reachable : ActionManager → Prop
  | init (mi : Nat) : Reachable (ActionManager.init mi)
  | create_temp {m : ActionManager} (h : Reachable m) (hn : m.temp_node = none)
      (thoughts action : String) (pr : Option ActionProperty) :
      Reachable (m.create_temp_node thoughts action pr).1
  | commit_adm {m : ActionManager} (h : Reachable m) : Reachable m.commit_admissible
  | commit_inv {m : ActionManager} (h : Reachable m) : Reachable m.commit_invalid.1
  | set_obs {m : ActionManager} (h : Reachable m) (obs : List ActionObservation) :
      Reachable (m.set_observation obs)
  | set_refl {m : ActionManager} (h : Reachable m) (v : Bool) (l s : String) :
      Reachable (m.set_reflection v l s)
  | backtrack {m : ActionManager} (h : Reachable m) (tg : Nat)
      (ht : m.find_backtrack_target = some tg) (s : String) :
      Reachable (m.backtrack_to tg s)

/-- Every reachable manager satisfies the invariant. -/
theorem reachable_inv {m : ActionManager} (h : Reachable m) : Inv m := by
  induction h with
  | init mi => exact inv_init mi
  | create_temp _ _ th ac pr ih => exact inv_create_temp _ ih th ac pr
  | commit_adm _ ih => exact inv_commit_admissible _ ih
  | commit_inv _ ih => exact inv_commit_invalid _ ih
  | set_obs _ obs ih => exact inv_set_observation _ ih obs
  | set_refl _ v l s ih => exact inv_set_reflection _ ih v l s
  | backtrack _ tg ht s ih => exact inv_backtrack _ ih tg ht s

theorem getLast?_eq_of_all {l : List Nat} {v : Nat} (h : ∀ x ∈ l, x = v)
    (hne : l ≠ []) : l.getLast? = some v := by
  rw [List.getLast?_eq_getLast l hne]
  exact congrArg some (h _ (List.getLast_mem hne))

theorem lastD_getLast? (l : List Nat) : ∀ (a : Nat), l ≠ [] →
    l.getLast? = some (lastD l a) := by
  induction l using List.reverseRecOn with
  | nil => intro a h; exact absurd rfl h
  | append_singleton q c _ =>
    intro a _
    rw [lastD_concat]
    exact List.getLast?_concat q

/-- Along a spine whose last node has only dead children, the
`get_reasoning_chain` descent reproduces the spine exactly. -/
theorem chainDescend_spine (m : ActionManager) :
    ∀ (rest : List Nat) (c a : Nat), SpineFrom m a (c :: rest) →
      (∀ d ∈ (m.node (lastD rest c)).children, (m.node d).dead_path = true) →
      ∀ fuel, rest.length ≤ fuel → m.chainDescend fuel c = c :: rest := by
  intro rest
  induction rest with
  | nil =>
    intro c a _ hdead fuel _
    have hlc : m.liveChildren c = [] := by
      rw [liveChildren, List.filter_eq_nil_iff]
      intro x hx
      simp [hdead x hx]
    cases fuel with
    | zero => rfl
    | succ f =>
      simp [chainDescend, chainNext, hlc]
  | cons d rest' ih =>
    intro c a hsp hdead fuel hfuel
    obtain ⟨-, -, -, -, -, -, h7⟩ := hsp
    obtain ⟨hd1, hd2, hd3, hd4, hd5, hd6, -⟩ := id h7
    have hlive_all : ∀ x ∈ m.liveChildren c, x = d := by
      intro x hx
      rw [liveChildren, List.mem_filter] at hx
      by_contra hne
      have := hd6 x hx.1 hne
      simp [this] at hx
    have hmem : d ∈ m.liveChildren c := by
      rw [liveChildren, List.mem_filter]
      exact ⟨hd1, by simp [hd5]⟩
    have hnext : m.chainNext c = some d := by
      simp only [chainNext]
      cases hk : (m.liveChildren c).filter (fun x => !(m.node x).children.isEmpty) with
      | cons x xs =>
        have hx : x ∈ m.liveChildren c := by
          have hx0 : x ∈ (m.liveChildren c).filter
              (fun x => !(m.node x).children.isEmpty) := by
            rw [hk]; exact List.mem_cons_self x xs
          exact (List.mem_filter.mp hx0).1
        show some x = some d
        rw [hlive_all x hx]
      | nil =>
        show (m.liveChildren c).getLast? = some d
        exact getLast?_eq_of_all hlive_all (List.ne_nil_of_mem hmem)
    cases fuel with
    | zero => simp at hfuel
    | succ f =>
      simp only [chainDescend, hnext]
      congr 1
      refine ih d c h7 hdead f ?_
      simpa using hfuel

/-- Under the invariant's spine conditions, `get_reasoning_chain` computes
exactly the spine. -/
theorem chain_eq_spine (m : ActionManager) (p : List Nat)
    (hbound : m.current < m.arena.length)
    (hp : SpineFrom m 0 p) (hlast : lastD p 0 = m.current)
    (hemp : p = [] → (m.node 0).children = [])
    (hdead : ∀ d ∈ (m.node m.current).children, (m.node d).dead_path = true) :
    m.get_reasoning_chain = p := by
  cases hpc : p with
  | nil =>
    have h0 : m.liveChildren 0 = [] := by
      rw [liveChildren, hemp hpc]
      rfl
    simp [get_reasoning_chain, h0]
  | cons c rest =>
    subst hpc
    obtain ⟨g1, g2, g3, g4, g5, g6, -⟩ := id hp
    have hall : ∀ x ∈ m.liveChildren 0, x = c := by
      intro x hx
      rw [liveChildren, List.mem_filter] at hx
      by_contra hne
      have := g6 x hx.1 hne
      simp [this] at hx
    have hmem : c ∈ m.liveChildren 0 := by
      rw [liveChildren, List.mem_filter]
      exact ⟨g1, by simp [g5]⟩
    have hdesc : m.chainDescend m.arena.length c = c :: rest := by
      refine chainDescend_spine m rest c 0 hp ?_ m.arena.length ?_
      · rw [show lastD rest c = m.current from hlast]
        exact hdead
      · have := spine_length_le hp
        rw [hlast] at this
        simp only [List.length_cons] at this
        omega
    have hcur_mem : m.current ∈ c :: rest := by
      rw [← hlast]
      exact lastD_mem _ 0 (by simp)
    cases hl : m.liveChildren 0 with
    | nil =>
      rw [hl] at hmem
      simp at hmem
    | cons r rs =>
      have hr : r = c := by
        refine hall r ?_
        rw [hl]
        exact List.mem_cons_self _ _
      subst hr
      simp only [get_reasoning_chain, hl]
      rw [hdesc, if_neg]
      intro hcon
      exact hcon.2 hcur_mem

end ActionManager

/-- C5: over every reachable tree state, the reasoning chain contains no
dead-path node, is empty or starts at a child of the root sentinel, and ends
at `current` whenever `current` is not the sentinel. -/
theorem c5_reasoning_chain_invariants (m : ActionManager) (h : ActionManager.Reachable m) :
    (∀ i ∈ m.get_reasoning_chain, (m.node i).dead_path = false) ∧
    (∀ c, m.get_reasoning_chain.head? = some c → c ∈ (m.node 0).children) ∧
    (m.current ≠ 0 → m.get_reasoning_chain.getLast? = some m.current) := by
  obtain ⟨h1, h2, h3, h4, p, hp, hlast, hemp, hdead⟩ := ActionManager.reachable_inv h
  have hchain := ActionManager.chain_eq_spine m p h2 hp hlast hemp hdead
  rw [hchain]
  refine ⟨ActionManager.spine_live hp, ?_, ?_⟩
  · intro c hc
    cases p with
    | nil => simp at hc
    | cons a rest =>
      obtain ⟨g1, -, -, -, -, -, -⟩ := hp
      have hca : a = c := by simpa using hc
      rw [← hca]
      exact g1
  · intro hcur
    cases hpc : p with
    | nil =>
      rw [hpc] at hlast
      simp [ActionManager.lastD] at hlast
      exact absurd hlast.symm hcur
    | cons a rest =>
      rw [← hlast, hpc]
      exact ActionManager.lastD_getLast? (a :: rest) 0 (by simp)

/-- Concrete reachable state for the C5 witness: one committed node. -/
def mc5 : ActionManager :=
  ((ActionManager.init 3).create_temp_node "a" "x"
    (some ActionProperty.exploratory)).1.commit_admissible

/-- Witness for `c5_reasoning_chain_invariants` at a concrete reachable
state. -/
theorem c5_witness : mc5.get_reasoning_chain.getLast? = some mc5.current :=
  (c5_reasoning_chain_invariants mc5
    (ActionManager.Reachable.commit_adm
      (ActionManager.Reachable.create_temp (ActionManager.Reachable.init 3) rfl
        "a" "x" (some ActionProperty.exploratory)))).2.2 (by decide)

/-! ### Python string primitives

The agent manipulates text with `str.splitlines(keepends=...)`, `strip`,
`lstrip` and `lower`.  They are modelled on `List Char`, with `\n` as the
line terminator (the only one occurring in the texts the agent produces) and
Python's six ASCII whitespace characters. -/

/-- Python whitespace (`str.strip` default set). -/
def isPyWs (c : Char) : Bool :=
  c = ' ' ∨ c = '\t' ∨ c = '\n' ∨ c = '\r' ∨ c = '\x0b' ∨ c = '\x0c'

/-- `str.splitlines(keepends=True)` with `\n` terminators: split after every
newline, keeping it. -/
def splitAfterNl : List Char → List (List Char)
  | [] => []
  | c :: cs =>
    if c = '\n' then ['\n'] :: splitAfterNl cs
    else
      match splitAfterNl cs with
      | [] => [[c]]
      | l :: ls => (c :: l) :: ls

/-- `str.lstrip()`. -/
def lstripChars (l : List Char) : List Char :=
  l.dropWhile isPyWs

/-- `str.strip()`. -/
def stripChars (l : List Char) : List Char :=
  (((l.dropWhile isPyWs).reverse).dropWhile isPyWs).reverse

/-- `len(content.splitlines())`. -/
def totalLines (content : String) : Nat :=
  (splitAfterNl content.toList).length

/-- `content.splitlines()` (no keepends): each kept line loses its `\n`. -/
def splitLinesPy (s : String) : List String :=
  (splitAfterNl s.toList).map (fun l => String.mk (l.takeWhile (fun c => c ≠ '\n')))

/-! ### CodeContextManager: `get_nearby_code_context` (claim C6) -/

/-- Abstract view of a tree-sitter node as the source consumes it:
`ts_utils.node_lines` (1-based start/end lines) and `ts_utils.node_name`. -/
structure TsNodeInfo where
  startLine : Nat
  endLine : Nat
  name : String
deriving DecidableEq, Repr

/-- `_resolve_path` (code_context_manager.py:24-27). -/
def resolvePath (cwd : String) (file_path : String) : String :=
  if cwd ≠ "" ∧ ¬ file_path.startsWith "/" then cwd ++ "/" ++ file_path else file_path

/-- `sorted(range(a, b + 1))`: a Python `range` is already ascending. -/
def lineRange (a b : Nat) : List Nat :=
  List.range' a (b + 1 - a)

/-- `get_nearby_code_context` (code_context_manager.py:40-75).  The
tree-sitter calls are abstracted: `funcNode` / `classNode` stand for the
innermost enclosing `function_definition` / `class_definition` found by
`ts_utils.enclosing_node` at `line_number` (with `node_lines` / `node_name`
applied); `content` is the (cached) file text — caching itself is modelled
for claim C9. -/
def get_nearby_code_context (content : String) (funcNode classNode : Option TsNodeInfo)
    (file_path : String) (line_number : Nat) (window_size : Nat := 100) : CodeChunk :=
  if content = "" then
    { file_path := file_path, class_name := "", function := "",
      whole_function := false, lines := [] }
  else
    let total_lines := totalLines content
    let class_name := match classNode with
      | some cn => cn.name
      | none => ""
    let func_name := match funcNode with
      | some fn => fn.name
      | none => ""
    match funcNode with
    | none =>
      { file_path := file_path, class_name := class_name, function := func_name,
        whole_function := false,
        lines := lineRange (max 1 (line_number - window_size / 2))
          (min total_lines (line_number + window_size / 2)) }
    | some fn =>
      let func_len := fn.endLine - fn.startLine + 1
      if func_len ≤ window_size then
        { file_path := file_path, class_name := class_name, function := func_name,
          whole_function := true, lines := lineRange fn.startLine fn.endLine }
      else
        { file_path := file_path, class_name := class_name, function := func_name,
          whole_function := false,
          lines := lineRange (max fn.startLine (line_number - window_size / 2))
            (min fn.endLine (line_number + window_size / 2)) }

theorem mem_lineRange (x a b : Nat) : x ∈ lineRange a b ↔ a ≤ x ∧ x ≤ b := by
  rw [lineRange, List.mem_range'_1]
  omega

/-- C6: `get_nearby_code_context` returns (1) with no enclosing function, a
non-whole-function symmetric window of `w` lines around `line` clamped to
`[1, total_lines]`; (2) the whole function when the innermost enclosing
function has length ≤ `w`; (3) otherwise a non-whole-function symmetric
window clamped to the function's extent.  Function nodes are well formed
(`1 ≤ start ≤ end`) and come from a nonempty file. -/
theorem c6_nearby_code_context (content : String) (funcNode classNode : Option TsNodeInfo)
    (fp : String) (line w : Nat) :
    (funcNode = none →
      (get_nearby_code_context content funcNode classNode fp line w).whole_function = false ∧
      ∀ x, x ∈ (get_nearby_code_context content funcNode classNode fp line w).lines ↔
        (max 1 (line - w / 2) ≤ x ∧ x ≤ min (totalLines content) (line + w / 2))) ∧
    (∀ fn, funcNode = some fn → content ≠ "" →
      1 ≤ fn.startLine → fn.startLine ≤ fn.endLine →
      fn.endLine - fn.startLine + 1 ≤ w →
      (get_nearby_code_context content funcNode classNode fp line w).whole_function = true ∧
      ∀ x, x ∈ (get_nearby_code_context content funcNode classNode fp line w).lines ↔
        (fn.startLine ≤ x ∧ x ≤ fn.endLine)) ∧
    (∀ fn, funcNode = some fn → content ≠ "" →
      1 ≤ fn.startLine → fn.startLine ≤ fn.endLine →
      w < fn.endLine - fn.startLine + 1 →
      (get_nearby_code_context content funcNode classNode fp line w).whole_function = false ∧
      ∀ x, x ∈ (get_nearby_code_context content funcNode classNode fp line w).lines ↔
        (max fn.startLine (line - w / 2) ≤ x ∧ x ≤ min fn.endLine (line + w / 2))) := by
  refine ⟨?_, ?_, ?_⟩
  · intro hf
    subst hf
    by_cases hc : content = ""
    · subst hc
      refine ⟨by simp [get_nearby_code_context], ?_⟩
      intro x
      have ht : totalLines "" = 0 := rfl
      simp only [get_nearby_code_context, if_pos rfl, ht]
      constructor
      · intro hx
        simp at hx
      · intro hx
        omega
    · refine ⟨by simp [get_nearby_code_context, hc], ?_⟩
      intro x
      simp only [get_nearby_code_context, if_neg hc]
      exact mem_lineRange x _ _
  · intro fn hf hc _ _ hlen
    subst hf
    have hcond : fn.endLine - fn.startLine + 1 ≤ w := hlen
    refine ⟨?_, ?_⟩
    · simp [get_nearby_code_context, hc, hcond]
    · intro x
      simp only [get_nearby_code_context, if_neg hc, if_pos hcond]
      exact mem_lineRange x _ _
  · intro fn hf hc _ _ hlen
    subst hf
    have hcond : ¬ (fn.endLine - fn.startLine + 1 ≤ w) := by omega
    refine ⟨?_, ?_⟩
    · simp [get_nearby_code_context, hc, hcond]
    · intro x
      simp only [get_nearby_code_context, if_neg hc, if_neg hcond]
      exact mem_lineRange x _ _

/-- Witness for `c6_nearby_code_context`: all three cases evaluated on
concrete inputs (a three-line file; a function spanning lines 2-4). -/
theorem c6_witness :
    ((get_nearby_code_context "a\nb\nc" none none "f.py" 2 100).whole_function = false) ∧
    ((get_nearby_code_context "a\nb\nc\nd\ne" (some ⟨2, 4, "f"⟩) none "f.py" 3
        100).whole_function = true) ∧
    ((get_nearby_code_context "a\nb\nc\nd\ne" (some ⟨2, 4, "f"⟩) none "f.py" 3
        2).whole_function = false) := by
  refine ⟨?_, ?_, ?_⟩
  · exact ((c6_nearby_code_context "a\nb\nc" none none "f.py" 2 100).1 rfl).1
  · exact ((c6_nearby_code_context "a\nb\nc\nd\ne" (some ⟨2, 4, "f"⟩) none "f.py" 3
      100).2.1 ⟨2, 4, "f"⟩ rfl (by decide) (by decide) (by decide) (by decide)).1
  · exact ((c6_nearby_code_context "a\nb\nc\nd\ne" (some ⟨2, 4, "f"⟩) none "f.py" 3
      2).2.2 ⟨2, 4, "f"⟩ rfl (by decide) (by decide) (by decide) (by decide)).1

/-! ### CodeContextManager: chunk merging and rendering (claim C3) -/

/-- The `_merge_chunks` dict key `(file_path, class_name, function)`. -/
def chunkKey (c : CodeChunk) : String × String × String :=
  (c.file_path, c.class_name, c.function)

/-- Sorted insertion without duplicates (kernel-reducible replacement for
sorting the dedup of a list). -/
def insertNoDup (x : Nat) : List Nat → List Nat
  | [] => [x]
  | y :: ys =>
    if x = y then y :: ys
    else if x < y then x :: y :: ys
    else y :: insertNoDup x ys

/-- `sorted(set(lines))`: the ascending duplicate-free enumeration of the
elements. -/
def sortedDedup (l : List Nat) : List Nat :=
  l.foldr insertNoDup []

/-- One step of `_merge_chunks`: Python dict insert-or-update, preserving
insertion order. -/
def mergeInto (acc : List ((String × String × String) × CodeChunk)) (c : CodeChunk) :
    List ((String × String × String) × CodeChunk) :=
  if acc.any (fun kv => kv.1 = chunkKey c) then
    acc.map (fun kv =>
      if kv.1 = chunkKey c then
        (kv.1, { kv.2 with
          whole_function := kv.2.whole_function || c.whole_function
          eof := kv.2.eof || c.eof
          lines := sortedDedup (kv.2.lines ++ c.lines) })
      else kv)
  else
    acc ++ [(chunkKey c, { c with lines := sortedDedup c.lines })]

/-- `_merge_chunks` (code_context_manager.py:116-134): `list(by_key.values())`. -/
def mergeChunks (chunks : List CodeChunk) : List CodeChunk :=
  (chunks.foldl mergeInto []).map (fun kv => kv.2)

/-- Abstract output of the syntactic analyses `_build_signature_map` and
`_build_block_parents`, as the pure functions of the parsed file content that
they are: `sigMap` is the signature-line map keyed by `(class_name,
function)` (with `[]` for missing keys, like `dict.get(key, [])`),
`rangeMap` the whole-function line-range map, `blockMap` the per-line set of
enclosing block-declaration lines. -/
structure ParseData where
  sigMap : String × String → List Nat
  rangeMap : String × String → List Nat
  blockMap : Nat → List Nat

/-- `_get_signature_lines` (code_context_manager.py:209-217). -/
def getSignatureLines (sigMap : String × String → List Nat)
    (class_name function : String) : List Nat :=
  (if class_name ≠ "" then sigMap (class_name, "") else []) ++
    (if function ≠ "" then sigMap (class_name, function)
     else if class_name ≠ "" then sigMap ("", class_name) else [])

/-- `_collect_needed_lines` (code_context_manager.py:136-151), over abstract
parse data.  The Python `set` is modelled by the list of its accumulated
elements: render consumes only its sorted dedup and its emptiness, which the
list determines. -/
def collectNeededLines (pd : ParseData) (chunks : List CodeChunk) : List Nat :=
  chunks.foldl (fun needed chunk =>
    let needed := needed
      ++ getSignatureLines pd.sigMap chunk.class_name chunk.function
    if chunk.whole_function then
      needed ++ pd.rangeMap (chunk.class_name, chunk.function)
    else
      (needed ++ chunk.lines)
        ++ chunk.lines.foldl (fun acc ln => acc ++ pd.blockMap ln) []) []

/-- Right-aligned formatting `f"{n:>{width}}"`. -/
def padLeft (s : String) (w : Nat) : String :=
  String.mk (List.replicate (w - s.length) ' ') ++ s

/-- `_render_lines` (code_context_manager.py:273-288). -/
def renderLines (file_lines : List String) (line_numbers : List Nat) (eof : Bool) :
    String :=
  if line_numbers = [] then ""
  else
    let width := (toString (line_numbers.foldl max 0)).length + 1
    let step := fun (st : List String × Option Nat) (ln : Nat) =>
      if ln < 1 ∨ file_lines.length < ln then st
      else
        let parts := match st.2 with
          | some prev => if prev + 1 < ln then st.1 ++ ["..."] else st.1
          | none => st.1
        (parts ++ [padLeft (toString ln) width ++ " " ++ file_lines.getD (ln - 1) ""],
          some ln)
    let parts := (line_numbers.foldl step ([], none)).1
    let parts := if eof then parts ++ ["  [EOF]"] else parts
    String.intercalate "\n" parts

/-- One step of the `files.setdefault(chunk.file_path, []).append(chunk)`
grouping. -/
def groupInto (acc : List (String × List CodeChunk)) (c : CodeChunk) :
    List (String × List CodeChunk) :=
  if acc.any (fun kv => kv.1 = c.file_path) then
    acc.map (fun kv => if kv.1 = c.file_path then (kv.1, kv.2 ++ [c]) else kv)
  else
    acc ++ [(c.file_path, [c])]

/-- `render` (code_context_manager.py:92-114), parameterized by the file
store (`_read_file` as a pure lookup — the cache dynamics are claim C9) and
the parser. -/
def render (getFile : String → String) (cwd : String) (parse : String → ParseData)
    (chunks : List CodeChunk) : String :=
  let merged := mergeChunks chunks
  if merged = [] then ""
  else
    let files := merged.foldl groupInto []
    let sections := files.foldl (fun secs kv =>
      let content := getFile (resolvePath cwd kv.1)
      let file_lines := splitLinesPy content
      if file_lines = [] then secs
      else
        let needed := collectNeededLines (parse content) kv.2
        if needed = [] then secs
        else
          let eof := kv.2.any (fun c => c.eof)
          let rendered := renderLines file_lines (sortedDedup needed) eof
          secs ++ ["## File: `" ++ kv.1 ++ "`\n" ++ rendered]) []
    String.intercalate "\n\n" sections

/-- Parse data of a file with no definitions and no compound statements
(what tree-sitter yields, e.g., for `"x = 1"`). -/
def emptyParse : ParseData :=
  { sigMap := fun _ => [], rangeMap := fun _ => [], blockMap := fun _ => [] }

/-- Two one-line files. -/
def cexGetFile : String → String :=
  fun p => if p = "a.py" then "x = 1" else "y = 2"

/-- C3 counterexample: two chunks naming different files render in the order
in which their files first occur in the input, so permuting them changes the
output byte-for-byte. -/
theorem c3_counterexample :
    render cexGetFile "" (fun _ => emptyParse)
        [{ file_path := "a.py", class_name := "", function := "",
           whole_function := false, lines := [1] },
         { file_path := "b.py", class_name := "", function := "",
           whole_function := false, lines := [1] }]
      ≠ render cexGetFile "" (fun _ => emptyParse)
        [{ file_path := "b.py", class_name := "", function := "",
           whole_function := false, lines := [1] },
         { file_path := "a.py", class_name := "", function := "",
           whole_function := false, lines := [1] }] := by decide

/-! Toward the amended C3: the merged-chunk list is, up to the order of
first key occurrence, a pure function of which chunks appear — captured by
an explicit canonical form of the `_merge_chunks` fold. -/

theorem mem_insertNoDup (x z : Nat) (l : List Nat) :
    z ∈ insertNoDup x l ↔ z = x ∨ z ∈ l := by
  induction l with
  | nil => simp [insertNoDup]
  | cons y ys ih =>
    simp only [insertNoDup]
    by_cases hxy : x = y
    · subst hxy
      rw [if_pos rfl]
      simp only [List.mem_cons]
      tauto
    · rw [if_neg hxy]
      by_cases hlt : x < y
      · rw [if_pos hlt]
        simp only [List.mem_cons]
      · rw [if_neg hlt]
        simp only [List.mem_cons, ih]
        tauto

theorem pairwise_insertNoDup (x : Nat) (l : List Nat) (h : l.Pairwise (· < ·)) :
    (insertNoDup x l).Pairwise (· < ·) := by
  induction l with
  | nil => simp [insertNoDup]
  | cons y ys ih =>
    rcases List.pairwise_cons.mp h with ⟨hy, hys⟩
    simp only [insertNoDup]
    by_cases hxy : x = y
    · subst hxy
      rw [if_pos rfl]
      exact h
    · rw [if_neg hxy]
      by_cases hlt : x < y
      · rw [if_pos hlt]
        refine List.pairwise_cons.mpr ⟨?_, h⟩
        intro z hz
        rcases List.mem_cons.mp hz with rfl | hz
        · exact hlt
        · exact lt_trans hlt (hy z hz)
      · rw [if_neg hlt]
        refine List.pairwise_cons.mpr ⟨?_, ih hys⟩
        intro z hz
        rcases (mem_insertNoDup x z ys).mp hz with rfl | hz
        · omega
        · exact hy z hz

theorem mem_sortedDedup (l : List Nat) (z : Nat) : z ∈ sortedDedup l ↔ z ∈ l := by
  induction l with
  | nil => simp [sortedDedup]
  | cons x xs ih =>
    show z ∈ insertNoDup x (sortedDedup xs) ↔ _
    rw [mem_insertNoDup, ih]
    simp [List.mem_cons]

theorem pairwise_sortedDedup (l : List Nat) : (sortedDedup l).Pairwise (· < ·) := by
  induction l with
  | nil => simp [sortedDedup]
  | cons x xs ih => exact pairwise_insertNoDup x _ ih

/-- Two lists with the same elements have the same sorted dedup. -/
theorem sortedDedup_eq_of_mem_iff {l₁ l₂ : List Nat}
    (h : ∀ x, x ∈ l₁ ↔ x ∈ l₂) : sortedDedup l₁ = sortedDedup l₂ := by
  have h1 := pairwise_sortedDedup l₁
  have h2 := pairwise_sortedDedup l₂
  have hd1 : (sortedDedup l₁).Nodup := h1.imp Nat.ne_of_lt
  have hd2 : (sortedDedup l₂).Nodup := h2.imp Nat.ne_of_lt
  have hmem : ∀ x, x ∈ sortedDedup l₁ ↔ x ∈ sortedDedup l₂ := by
    intro x
    rw [mem_sortedDedup, mem_sortedDedup]
    exact h x
  have hperm : List.Perm (sortedDedup l₁) (sortedDedup l₂) :=
    (List.perm_ext_iff_of_nodup hd1 hd2).mpr hmem
  exact List.eq_of_perm_of_sorted hperm
    (h1.imp (fun hab => le_of_lt hab)) (h2.imp (fun hab => le_of_lt hab))

/-- First-occurrence-order dedup of a key list — the order in which
`_merge_chunks`' dict acquires its keys. -/
def dedupKeys (ks : List (String × String × String)) : List (String × String × String) :=
  ks.foldl (fun acc k => if k ∈ acc then acc else acc ++ [k]) []

/-- The input chunks carrying a given key, in order. -/
def keyChunks (k : String × String × String) (l : List CodeChunk) : List CodeChunk :=
  l.filter (fun c => chunkKey c = k)

/-- OR of `whole_function` over a key's chunks. -/
def anyWholeK (k : String × String × String) (l : List CodeChunk) : Bool :=
  (keyChunks k l).any (fun c => c.whole_function)

/-- OR of `eof` over a key's chunks. -/
def anyEofK (k : String × String × String) (l : List CodeChunk) : Bool :=
  (keyChunks k l).any (fun c => c.eof)

/-- Concatenation of `lines` over a key's chunks. -/
def linesFlat (k : String × String × String) (l : List CodeChunk) : List Nat :=
  (keyChunks k l).foldl (fun acc c => acc ++ c.lines) []

/-- The canonical merged chunk of a key: what `_merge_chunks` ends up
storing under it. -/
def canonChunk (k : String × String × String) (l : List CodeChunk) : CodeChunk :=
  { file_path := k.1, class_name := k.2.1, function := k.2.2,
    whole_function := anyWholeK k l, eof := anyEofK k l,
    lines := sortedDedup (linesFlat k l) }

theorem mem_dedupKeys_aux (ks : List (String × String × String)) :
    ∀ acc x, (x ∈ ks.foldl (fun acc k => if k ∈ acc then acc else acc ++ [k]) acc
      ↔ x ∈ acc ∨ x ∈ ks) := by
  induction ks with
  | nil => simp
  | cons k rest ih =>
    intro acc x
    simp only [List.foldl_cons]
    by_cases hk : k ∈ acc
    · rw [if_pos hk, ih]
      constructor
      · rintro (h | h)
        · exact Or.inl h
        · exact Or.inr (List.mem_cons_of_mem _ h)
      · rintro (h | h)
        · exact Or.inl h
        · rcases List.mem_cons.mp h with rfl | h
          · exact Or.inl hk
          · exact Or.inr h
    · rw [if_neg hk, ih]
      simp only [List.mem_append, List.mem_singleton, List.mem_cons]
      tauto

theorem mem_dedupKeys (ks : List (String × String × String))
    (x : String × String × String) : x ∈ dedupKeys ks ↔ x ∈ ks := by
  rw [dedupKeys, mem_dedupKeys_aux]
  simp

theorem dedupKeys_append_one (ks : List (String × String × String))
    (k : String × String × String) :
    dedupKeys (ks ++ [k])
      = if k ∈ dedupKeys ks then dedupKeys ks else dedupKeys ks ++ [k] := by
  rw [dedupKeys, List.foldl_append]
  rfl

theorem keyChunks_append_eq {c : CodeChunk} {k : String × String × String}
    (h : chunkKey c = k) (l : List CodeChunk) :
    keyChunks k (l ++ [c]) = keyChunks k l ++ [c] := by
  simp [keyChunks, List.filter_append, h]

theorem keyChunks_append_ne {c : CodeChunk} {k : String × String × String}
    (h : chunkKey c ≠ k) (l : List CodeChunk) :
    keyChunks k (l ++ [c]) = keyChunks k l := by
  simp [keyChunks, List.filter_append, h]

theorem canonChunk_append_ne {c : CodeChunk} {k : String × String × String}
    (h : chunkKey c ≠ k) (l : List CodeChunk) :
    canonChunk k (l ++ [c]) = canonChunk k l := by
  simp [canonChunk, anyWholeK, anyEofK, linesFlat, keyChunks_append_ne h]

theorem linesFlat_append_eq {c : CodeChunk} {k : String × String × String}
    (h : chunkKey c = k) (l : List CodeChunk) :
    linesFlat k (l ++ [c]) = linesFlat k l ++ c.lines := by
  rw [linesFlat, keyChunks_append_eq h, List.foldl_append]
  rfl

/-- Inserting after an existing sorted dedup does not change the sorted
dedup of the whole. -/
theorem sortedDedup_sortedDedup_append (a b : List Nat) :
    sortedDedup (sortedDedup a ++ b) = sortedDedup (a ++ b) := by
  refine sortedDedup_eq_of_mem_iff ?_
  intro x
  simp [List.mem_append, mem_sortedDedup]

/-- The canonical description of the `_merge_chunks` fold: one entry per
distinct key in first-occurrence order, holding the OR-merged flags and the
sorted dedup of all lines of that key. -/
theorem merge_foldl_canon (l : List CodeChunk) :
    l.foldl mergeInto []
      = (dedupKeys (l.map chunkKey)).map (fun k => (k, canonChunk k l)) := by
  induction l using List.reverseRecOn with
  | nil => rfl
  | append_singleton l c ih =>
    rw [List.foldl_append, List.foldl_cons, List.foldl_nil, ih, List.map_append,
      List.map_singleton, dedupKeys_append_one]
    by_cases hmem : chunkKey c ∈ dedupKeys (l.map chunkKey)
    · rw [if_pos hmem]
      have hany : ((dedupKeys (l.map chunkKey)).map
          (fun k => (k, canonChunk k l))).any (fun kv => kv.1 = chunkKey c) = true := by
        rw [List.any_eq_true]
        refine ⟨(chunkKey c, canonChunk (chunkKey c) l),
          List.mem_map.mpr ⟨chunkKey c, hmem, rfl⟩, by simp⟩
      rw [mergeInto, if_pos hany, List.map_map]
      refine List.map_congr_left ?_
      intro k hk
      simp only [Function.comp_apply]
      by_cases hkc : k = chunkKey c
      · subst hkc
        rw [if_pos rfl]
        refine congrArg (Prod.mk (chunkKey c)) ?_
        show ({ canonChunk (chunkKey c) l with
            whole_function :=
              (canonChunk (chunkKey c) l).whole_function || c.whole_function
            eof := (canonChunk (chunkKey c) l).eof || c.eof
            lines := sortedDedup ((canonChunk (chunkKey c) l).lines ++ c.lines) }
            : CodeChunk)
          = canonChunk (chunkKey c) (l ++ [c])
        simp only [canonChunk, CodeChunk.mk.injEq, true_and]
        refine ⟨?_, ?_, ?_⟩
        · simp only [anyWholeK, keyChunks_append_eq rfl, List.any_append]
          simp
        · rw [sortedDedup_sortedDedup_append, linesFlat_append_eq rfl]
        · simp only [anyEofK, keyChunks_append_eq rfl, List.any_append]
          simp
      · rw [if_neg hkc, canonChunk_append_ne (fun h => hkc h.symm)]
    · rw [if_neg hmem]
      have hany : ((dedupKeys (l.map chunkKey)).map
          (fun k => (k, canonChunk k l))).any (fun kv => kv.1 = chunkKey c) = false := by
        rw [List.any_eq_false]
        rintro kv hkv
        obtain ⟨k, hk, rfl⟩ := List.mem_map.mp hkv
        simp only [decide_eq_true_eq]
        exact fun heq => hmem (heq ▸ hk)
      rw [mergeInto, if_neg (by simp [hany]), List.map_append, List.map_singleton]
      congr 1
      · refine List.map_congr_left ?_
        intro k hk
        rw [canonChunk_append_ne (fun h => hmem (h ▸ hk)) l]
      · have hfilter : keyChunks (chunkKey c) l = [] := by
          rw [keyChunks, List.filter_eq_nil_iff]
          intro x hx
          simp only [decide_eq_true_eq]
          intro hxc
          exact hmem ((mem_dedupKeys _ _).mpr (List.mem_map.mpr ⟨x, hx, hxc⟩))
        refine congrArg (fun z => [z]) (congrArg (Prod.mk (chunkKey c)) ?_)
        show ({ c with lines := sortedDedup c.lines } : CodeChunk)
          = canonChunk (chunkKey c) (l ++ [c])
        simp only [canonChunk, CodeChunk.mk.injEq, true_and]
        refine ⟨rfl, rfl, rfl, ?_, ?_, ?_⟩
        · simp [anyWholeK, keyChunks_append_eq rfl, hfilter]
        · simp [linesFlat, keyChunks_append_eq rfl, hfilter]
        · simp [anyEofK, keyChunks_append_eq rfl, hfilter]

/-- `_merge_chunks` in canonical form. -/
theorem mergeChunks_canon (l : List CodeChunk) :
    mergeChunks l = (dedupKeys (l.map chunkKey)).map (fun k => canonChunk k l) := by
  rw [mergeChunks, merge_foldl_canon, List.map_map]
  rfl

theorem mergeChunks_eq_nil (l : List CodeChunk) : mergeChunks l = [] ↔ l = [] := by
  rw [mergeChunks_canon]
  constructor
  · intro h
    rw [List.map_eq_nil_iff] at h
    rcases l with - | ⟨c, rest⟩
    · rfl
    · exfalso
      have : chunkKey c ∈ dedupKeys ((c :: rest).map chunkKey) :=
        (mem_dedupKeys _ _).mpr (List.mem_map.mpr ⟨c, List.mem_cons_self _ _, rfl⟩)
      rw [h] at this
      simp at this
  · rintro rfl
    rfl

theorem groupInto_aux (fp : String) :
    ∀ (l : List CodeChunk) (pre : List CodeChunk), (∀ c ∈ l, c.file_path = fp) →
      l.foldl groupInto [(fp, pre)] = [(fp, pre ++ l)] := by
  intro l
  induction l with
  | nil => intro pre _; simp
  | cons c rest ih =>
    intro pre h
    have hc : c.file_path = fp := h c (List.mem_cons_self _ _)
    have hstep : groupInto [(fp, pre)] c = [(fp, pre ++ [c])] := by
      rw [groupInto, if_pos]
      · simp [hc]
      · simp [hc]
    simp only [List.foldl_cons, hstep]
    rw [ih (pre ++ [c]) (fun d hd => h d (List.mem_cons_of_mem _ hd))]
    simp

/-- Grouping a nonempty single-file chunk list yields one group. -/
theorem groupInto_single (l : List CodeChunk) (fp : String)
    (h : ∀ c ∈ l, c.file_path = fp) (hne : l ≠ []) :
    l.foldl groupInto [] = [(fp, l)] := by
  rcases l with - | ⟨c, rest⟩
  · exact absurd rfl hne
  · have hc : c.file_path = fp := h c (List.mem_cons_self _ _)
    have hstep : groupInto [] c = [(fp, [c])] := by
      rw [groupInto, if_neg (by simp)]
      simp [hc]
    simp only [List.foldl_cons, hstep]
    rw [groupInto_aux fp rest [c] (fun d hd => h d (List.mem_cons_of_mem _ hd))]
    simp

theorem mem_foldl_append {α : Type} (g : α → List Nat) :
    ∀ (l : List α) (init : List Nat) (x : Nat),
      (x ∈ l.foldl (fun acc a => acc ++ g a) init ↔ x ∈ init ∨ ∃ a ∈ l, x ∈ g a) := by
  intro l
  induction l with
  | nil => simp
  | cons a rest ih =>
    intro init x
    simp only [List.foldl_cons, ih, List.mem_append, List.mem_cons]
    constructor
    · rintro ((h | h) | ⟨b, hb, hx⟩)
      · exact Or.inl h
      · exact Or.inr ⟨a, Or.inl rfl, h⟩
      · exact Or.inr ⟨b, Or.inr hb, hx⟩
    · rintro (h | ⟨b, (rfl | hb), hx⟩)
      · exact Or.inl (Or.inl h)
      · exact Or.inl (Or.inr hx)
      · exact Or.inr ⟨b, hb, hx⟩

/-- The lines one chunk makes `_collect_needed_lines` add. -/
def chunkContrib (pd : ParseData) (c : CodeChunk) : List Nat :=
  getSignatureLines pd.sigMap c.class_name c.function ++
    (if c.whole_function then pd.rangeMap (c.class_name, c.function)
     else c.lines ++ c.lines.foldl (fun acc ln => acc ++ pd.blockMap ln) [])

theorem collect_body_eq (pd : ParseData) (needed : List Nat) (c : CodeChunk) :
    (if c.whole_function then
      (needed ++ getSignatureLines pd.sigMap c.class_name c.function)
        ++ pd.rangeMap (c.class_name, c.function)
     else
      ((needed ++ getSignatureLines pd.sigMap c.class_name c.function) ++ c.lines)
        ++ c.lines.foldl (fun acc ln => acc ++ pd.blockMap ln) [])
      = needed ++ chunkContrib pd c := by
  rw [chunkContrib]
  by_cases hw : c.whole_function
  · rw [if_pos hw, if_pos hw, List.append_assoc]
  · rw [if_neg hw, if_neg hw, List.append_assoc, List.append_assoc]

theorem collectNeededLines_eq_foldl (pd : ParseData) (cs : List CodeChunk) :
    collectNeededLines pd cs = cs.foldl (fun acc c => acc ++ chunkContrib pd c) [] := by
  rw [collectNeededLines]
  refine congrFun (congrFun (congrArg List.foldl ?_) []) cs
  funext needed c
  exact collect_body_eq pd needed c

theorem mem_collectNeededLines (pd : ParseData) (cs : List CodeChunk) (x : Nat) :
    x ∈ collectNeededLines pd cs ↔ ∃ c ∈ cs, x ∈ chunkContrib pd c := by
  rw [collectNeededLines_eq_foldl, mem_foldl_append]
  simp

theorem mem_linesFlat (k : String × String × String) (l : List CodeChunk) (x : Nat) :
    x ∈ linesFlat k l ↔ ∃ c ∈ l, chunkKey c = k ∧ x ∈ c.lines := by
  rw [linesFlat, mem_foldl_append]
  simp only [List.mem_nil_iff, false_or, keyChunks, List.mem_filter,
    decide_eq_true_eq]
  constructor
  · rintro ⟨c, ⟨hc, hkc⟩, hx⟩
    exact ⟨c, hc, hkc, hx⟩
  · rintro ⟨c, hc, hkc, hx⟩
    exact ⟨c, ⟨hc, hkc⟩, hx⟩

theorem anyWholeK_iff (k : String × String × String) (l : List CodeChunk) :
    anyWholeK k l = true ↔ ∃ c ∈ l, chunkKey c = k ∧ c.whole_function = true := by
  rw [anyWholeK, List.any_eq_true]
  simp only [keyChunks, List.mem_filter, decide_eq_true_eq]
  constructor
  · rintro ⟨c, ⟨hc, hkc⟩, hw⟩
    exact ⟨c, hc, hkc, hw⟩
  · rintro ⟨c, hc, hkc, hw⟩
    exact ⟨c, ⟨hc, hkc⟩, hw⟩

theorem anyEofK_iff (k : String × String × String) (l : List CodeChunk) :
    anyEofK k l = true ↔ ∃ c ∈ l, chunkKey c = k ∧ c.eof = true := by
  rw [anyEofK, List.any_eq_true]
  simp only [keyChunks, List.mem_filter, decide_eq_true_eq]
  constructor
  · rintro ⟨c, ⟨hc, hkc⟩, hw⟩
    exact ⟨c, hc, hkc, hw⟩
  · rintro ⟨c, hc, hkc, hw⟩
    exact ⟨c, ⟨hc, hkc⟩, hw⟩

theorem anyWholeK_perm {l l' : List CodeChunk} (h : List.Perm l l')
    (k : String × String × String) : anyWholeK k l = anyWholeK k l' := by
  rw [Bool.eq_iff_iff, anyWholeK_iff, anyWholeK_iff]
  constructor
  · rintro ⟨c, hc, hrest⟩
    exact ⟨c, h.mem_iff.mp hc, hrest⟩
  · rintro ⟨c, hc, hrest⟩
    exact ⟨c, h.mem_iff.mpr hc, hrest⟩

/-- Membership in the needed-line set of the merged chunks, phrased over the
original input chunks only (hence invariant under permutations). -/
theorem mem_collect_merged (pd : ParseData) (l : List CodeChunk) (x : Nat) :
    (x ∈ collectNeededLines pd (mergeChunks l)) ↔
    ∃ k, (∃ c ∈ l, chunkKey c = k) ∧
      (x ∈ getSignatureLines pd.sigMap k.2.1 k.2.2 ∨
        (anyWholeK k l = true ∧ x ∈ pd.rangeMap (k.2.1, k.2.2)) ∨
        (anyWholeK k l = false ∧
          ((∃ c ∈ l, chunkKey c = k ∧ x ∈ c.lines) ∨
            ∃ ln, (∃ c ∈ l, chunkKey c = k ∧ ln ∈ c.lines) ∧ x ∈ pd.blockMap ln))) := by
  rw [mem_collectNeededLines, mergeChunks_canon]
  constructor
  · rintro ⟨mc, hmc, hx⟩
    obtain ⟨k, hk, rfl⟩ := List.mem_map.mp hmc
    refine ⟨k, ?_, ?_⟩
    · obtain ⟨c, hc, hck⟩ := List.mem_map.mp ((mem_dedupKeys _ _).mp hk)
      exact ⟨c, hc, hck⟩
    · rw [chunkContrib] at hx
      rcases List.mem_append.mp hx with hsig | hrest
      · exact Or.inl hsig
      · cases hw : anyWholeK k l with
        | true =>
          rw [show (canonChunk k l).whole_function = true from hw, if_pos rfl] at hrest
          exact Or.inr (Or.inl ⟨rfl, hrest⟩)
        | false =>
          rw [show (canonChunk k l).whole_function = false from hw] at hrest
          simp only [Bool.false_eq_true, if_false] at hrest
          rcases List.mem_append.mp hrest with hl | hb
          · refine Or.inr (Or.inr ⟨rfl, Or.inl ?_⟩)
            have : x ∈ linesFlat k l := by
              have := hl
              show x ∈ linesFlat k l
              rw [show (canonChunk k l).lines = sortedDedup (linesFlat k l) from rfl,
                mem_sortedDedup] at this
              exact this
            exact (mem_linesFlat k l x).mp this
          · refine Or.inr (Or.inr ⟨rfl, Or.inr ?_⟩)
            rw [mem_foldl_append] at hb
            rcases hb with hb | ⟨ln, hln, hx2⟩
            · simp at hb
            · refine ⟨ln, ?_, hx2⟩
              rw [show (canonChunk k l).lines = sortedDedup (linesFlat k l) from rfl,
                mem_sortedDedup, mem_linesFlat] at hln
              exact hln
  · rintro ⟨k, ⟨c, hc, hck⟩, hcase⟩
    have hkD : k ∈ dedupKeys (l.map chunkKey) :=
      (mem_dedupKeys _ _).mpr (List.mem_map.mpr ⟨c, hc, hck⟩)
    refine ⟨canonChunk k l, List.mem_map.mpr ⟨k, hkD, rfl⟩, ?_⟩
    rw [chunkContrib, List.mem_append]
    rcases hcase with hsig | ⟨hw, hrange⟩ | ⟨hw, hlines⟩
    · exact Or.inl hsig
    · refine Or.inr ?_
      rw [show (canonChunk k l).whole_function = true from hw, if_pos rfl]
      exact hrange
    · refine Or.inr ?_
      rw [show (canonChunk k l).whole_function = false from hw]
      simp only [Bool.false_eq_true, if_false]
      rw [List.mem_append]
      rcases hlines with hl | ⟨ln, hln, hx2⟩
      · refine Or.inl ?_
        show x ∈ (canonChunk k l).lines
        rw [show (canonChunk k l).lines = sortedDedup (linesFlat k l) from rfl,
          mem_sortedDedup, mem_linesFlat]
        exact hl
      · refine Or.inr ?_
        rw [mem_foldl_append]
        refine Or.inr ⟨ln, ?_, hx2⟩
        show ln ∈ (canonChunk k l).lines
        rw [show (canonChunk k l).lines = sortedDedup (linesFlat k l) from rfl,
          mem_sortedDedup, mem_linesFlat]
        exact hln

/-- `any eof` over the merged chunks equals `any eof` over the input. -/
theorem merged_any_eof (l : List CodeChunk) :
    (mergeChunks l).any (fun c => c.eof) = l.any (fun c => c.eof) := by
  rw [Bool.eq_iff_iff, List.any_eq_true, List.any_eq_true, mergeChunks_canon]
  constructor
  · rintro ⟨mc, hmc, he⟩
    obtain ⟨k, hk, rfl⟩ := List.mem_map.mp hmc
    have : anyEofK k l = true := he
    obtain ⟨c, hc, -, hce⟩ := (anyEofK_iff k l).mp this
    exact ⟨c, hc, hce⟩
  · rintro ⟨c, hc, hce⟩
    have hkD : chunkKey c ∈ dedupKeys (l.map chunkKey) :=
      (mem_dedupKeys _ _).mpr (List.mem_map.mpr ⟨c, hc, rfl⟩)
    refine ⟨canonChunk (chunkKey c) l, List.mem_map.mpr ⟨chunkKey c, hkD, rfl⟩, ?_⟩
    show anyEofK (chunkKey c) l = true
    exact (anyEofK_iff _ l).mpr ⟨c, hc, rfl, hce⟩

theorem intercalate_singleton (x : String) : String.intercalate "\n\n" [x] = x := by
  simp [String.intercalate, String.intercalate.go]

/-- Closed form of `render` when every merged chunk names the same file. -/
theorem render_single (g : String → String) (cwd : String) (parse : String → ParseData)
    (chunks : List CodeChunk) (fp : String)
    (hne : chunks ≠ []) (hfp : ∀ c ∈ mergeChunks chunks, c.file_path = fp) :
    render g cwd parse chunks =
      (if splitLinesPy (g (resolvePath cwd fp)) = [] then ""
       else if collectNeededLines (parse (g (resolvePath cwd fp))) (mergeChunks chunks) = []
       then ""
       else "## File: `" ++ fp ++ "`\n"
         ++ renderLines (splitLinesPy (g (resolvePath cwd fp)))
             (sortedDedup (collectNeededLines (parse (g (resolvePath cwd fp)))
               (mergeChunks chunks)))
             ((mergeChunks chunks).any (fun c => c.eof))) := by
  have hm : mergeChunks chunks ≠ [] := by
    rw [ne_eq, mergeChunks_eq_nil]
    exact hne
  rw [render]
  simp only [if_neg hm]
  rw [groupInto_single (mergeChunks chunks) fp hfp hm]
  simp only [List.foldl_cons, List.foldl_nil]
  by_cases h1 : splitLinesPy (g (resolvePath cwd fp)) = []
  · rw [if_pos h1, if_pos h1]
    rfl
  · rw [if_neg h1, if_neg h1]
    by_cases h2 : collectNeededLines (parse (g (resolvePath cwd fp)))
        (mergeChunks chunks) = []
    · rw [if_pos h2, if_pos h2]
      rfl
    · rw [if_neg h2, if_neg h2]
      rw [List.nil_append, intercalate_singleton]

theorem collect_merged_transfer (pd : ParseData) (a b : List CodeChunk)
    (hab : List.Perm a b) (x : Nat)
    (hx : x ∈ collectNeededLines pd (mergeChunks a)) :
    x ∈ collectNeededLines pd (mergeChunks b) := by
  rw [mem_collect_merged] at hx ⊢
  obtain ⟨k, ⟨c, hc, hck⟩, hcase⟩ := hx
  refine ⟨k, ⟨c, hab.mem_iff.mp hc, hck⟩, ?_⟩
  rcases hcase with hsig | ⟨hw, hr⟩ | ⟨hw, hl⟩
  · exact Or.inl hsig
  · exact Or.inr (Or.inl ⟨(anyWholeK_perm hab k) ▸ hw, hr⟩)
  · refine Or.inr (Or.inr ⟨(anyWholeK_perm hab k) ▸ hw, ?_⟩)
    rcases hl with ⟨d, hd, hdk, hdx⟩ | ⟨ln, ⟨d, hd, hdk, hdl⟩, hxb⟩
    · exact Or.inl ⟨d, hab.mem_iff.mp hd, hdk, hdx⟩
    · exact Or.inr ⟨ln, ⟨d, hab.mem_iff.mp hd, hdk, hdl⟩, hxb⟩

/-- C3 (amended): per-file rendering is a pure function of the merged chunk
set — for chunk lists naming a single file, permuting the input yields
byte-identical output.  (Across several files, each file section is itself
order-independent, but the sections follow first-occurrence order of the
file paths, as the counterexample shows.) -/
theorem c3_amended_render_perm (g : String → String) (cwd : String)
    (parse : String → ParseData) (fp : String) (chunks chunks' : List CodeChunk)
    (hperm : List.Perm chunks chunks') (hfp : ∀ c ∈ chunks, c.file_path = fp) :
    render g cwd parse chunks = render g cwd parse chunks' := by
  by_cases hnil : chunks = []
  · subst hnil
    rw [List.Perm.eq_nil hperm.symm]
  · have hnil' : chunks' ≠ [] := by
      intro h
      subst h
      exact hnil (List.Perm.eq_nil hperm)
    have hfp' : ∀ c ∈ chunks', c.file_path = fp :=
      fun c hc => hfp c (hperm.mem_iff.mpr hc)
    have hmfp : ∀ c ∈ mergeChunks chunks, c.file_path = fp := by
      intro mc hmc
      rw [mergeChunks_canon] at hmc
      obtain ⟨k, hk, rfl⟩ := List.mem_map.mp hmc
      obtain ⟨c, hc, hck⟩ := List.mem_map.mp ((mem_dedupKeys _ _).mp hk)
      show k.1 = fp
      rw [← hck]
      exact hfp c hc
    have hmfp' : ∀ c ∈ mergeChunks chunks', c.file_path = fp := by
      intro mc hmc
      rw [mergeChunks_canon] at hmc
      obtain ⟨k, hk, rfl⟩ := List.mem_map.mp hmc
      obtain ⟨c, hc, hck⟩ := List.mem_map.mp ((mem_dedupKeys _ _).mp hk)
      show k.1 = fp
      rw [← hck]
      exact hfp' c hc
    rw [render_single g cwd parse chunks fp hnil hmfp,
      render_single g cwd parse chunks' fp hnil' hmfp']
    have hmemiff : ∀ x,
        x ∈ collectNeededLines (parse (g (resolvePath cwd fp))) (mergeChunks chunks)
          ↔ x ∈ collectNeededLines (parse (g (resolvePath cwd fp)))
              (mergeChunks chunks') :=
      fun x => ⟨collect_merged_transfer _ _ _ hperm x,
        collect_merged_transfer _ _ _ hperm.symm x⟩
    have hsd := sortedDedup_eq_of_mem_iff hmemiff
    have hempty :
        (collectNeededLines (parse (g (resolvePath cwd fp))) (mergeChunks chunks) = [])
          ↔ (collectNeededLines (parse (g (resolvePath cwd fp)))
              (mergeChunks chunks') = []) := by
      rw [List.eq_nil_iff_forall_not_mem, List.eq_nil_iff_forall_not_mem]
      exact forall_congr' fun x => not_congr (hmemiff x)
    have heof : (mergeChunks chunks).any (fun c => c.eof)
        = (mergeChunks chunks').any (fun c => c.eof) := by
      rw [merged_any_eof, merged_any_eof, Bool.eq_iff_iff,
        List.any_eq_true, List.any_eq_true]
      constructor
      · rintro ⟨c, hc, hce⟩
        exact ⟨c, hperm.mem_iff.mp hc, hce⟩
      · rintro ⟨c, hc, hce⟩
        exact ⟨c, hperm.mem_iff.mpr hc, hce⟩
    by_cases h1 : splitLinesPy (g (resolvePath cwd fp)) = []
    · rw [if_pos h1, if_pos h1]
    · rw [if_neg h1, if_neg h1]
      by_cases h2 : collectNeededLines (parse (g (resolvePath cwd fp)))
          (mergeChunks chunks) = []
      · rw [if_pos h2, if_pos (hempty.mp h2)]
      · rw [if_neg h2, if_neg (fun hh => h2 (hempty.mpr hh)), hsd, heof]

/-- Witness for `c3_amended_render_perm`: two same-file chunks swapped. -/
theorem c3_amended_witness :
    render cexGetFile "" (fun _ => emptyParse)
        [{ file_path := "a.py", class_name := "", function := "",
           whole_function := false, lines := [1] },
         { file_path := "a.py", class_name := "x", function := "",
           whole_function := false, lines := [1] }]
      = render cexGetFile "" (fun _ => emptyParse)
        [{ file_path := "a.py", class_name := "x", function := "",
           whole_function := false, lines := [1] },
         { file_path := "a.py", class_name := "", function := "",
           whole_function := false, lines := [1] }] := by
  refine c3_amended_render_perm cexGetFile "" (fun _ => emptyParse) "a.py" _ _ ?_ ?_
  · exact List.Perm.swap _ _ []
  · decide

/-! ### CodeContextManager caching (claim C9)

`get_nearby_code_context`, `get_code_lines` and `render` read file contents
only through `_read_file` / `_parse_file`; a run of the manager is therefore
modelled as a sequence of such primitive accesses, each against the sandbox
file system *of that moment* (it may change between accesses). -/

/-- The mutable caches of one `CodeContextManager` instance:
`_file_cache` and `_parse_cache`, keyed by resolved path. -/
structure CacheState where
  file_cache : List (String × String)
  parse_cache : List (String × ParseData)

/-- Fresh caches (`__init__`). -/
def CacheState.init : CacheState := ⟨[], []⟩

/-- `_read_file` (code_context_manager.py:29-32): consult `_file_cache`,
invoke the `get_file_fn` delegate exactly when the path is absent.  `fs` is
the delegate's behaviour at this moment.  The Bool records whether the
delegate was invoked. -/
def readFile (st : CacheState) (fs : String → String) (path : String) :
    CacheState × String × Bool :=
  match st.file_cache.lookup path with
  | some content => (st, content, false)
  | none =>
    let content := fs path
    ({ st with file_cache := st.file_cache ++ [(path, content)] }, content, true)

/-- `_parse_file` (code_context_manager.py:34-38): read through the cache,
then parse once per path.  Returns the content used, the parse returned, and
the delegate flag. -/
def parseFile (parse : String → ParseData) (st : CacheState) (fs : String → String)
    (path : String) : CacheState × String × ParseData × Bool :=
  let r := readFile st fs path
  match r.1.parse_cache.lookup path with
  | some pd => (r.1, r.2.1, pd, r.2.2)
  | none =>
    ({ r.1 with parse_cache := r.1.parse_cache ++ [(path, parse r.2.1)] },
      r.2.1, parse r.2.1, r.2.2)

/-- A primitive cache access issued by some public operation. -/
inductive CacheOp
  | read (path : String)
  | parseOp (path : String)

/-- What one access observed. -/
structure ReadEvent where
  path : String
  content : String
  delegated : Bool
  parsed : Option ParseData

/-- Execute one access against the current file system. -/
def runStep (parse : String → ParseData) (st : CacheState)
    (op : CacheOp × (String → String)) : CacheState × ReadEvent :=
  match op.1 with
  | .read p =>
    let r := readFile st op.2 p
    (r.1, ⟨p, r.2.1, r.2.2, none⟩)
  | .parseOp p =>
    let r := parseFile parse st op.2 p
    (r.1, ⟨p, r.2.1, r.2.2.2, some r.2.2.1⟩)

/-- Execute a whole access sequence, collecting the events. -/
def runTrace (parse : String → ParseData) :
    CacheState → List (CacheOp × (String → String)) → CacheState × List ReadEvent
  | st, [] => (st, [])
  | st, op :: rest =>
    let r := runStep parse st op
    let r2 := runTrace parse r.1 rest
    (r2.1, r.2 :: r2.2)

theorem lookup_append_some {β : Type} (l l' : List (String × β)) (k : String) (v : β)
    (h : l.lookup k = some v) : (l ++ l').lookup k = some v := by
  induction l with
  | nil => simp [List.lookup] at h
  | cons a t ih =>
    rw [List.cons_append, List.lookup_cons]
    rw [List.lookup_cons] at h
    by_cases hk : (k == a.1) = true
    · rw [hk] at h ⊢
      exact h
    · rw [Bool.not_eq_true] at hk
      rw [hk] at h ⊢
      exact ih h

theorem lookup_append_self {β : Type} (l : List (String × β)) (k : String) (v : β)
    (h : l.lookup k = none) : (l ++ [(k, v)]).lookup k = some v := by
  induction l with
  | nil => simp [List.lookup]
  | cons a t ih =>
    rw [List.lookup_cons] at h
    rw [List.cons_append, List.lookup_cons]
    by_cases hk : (k == a.1) = true
    · rw [hk] at h
      exact absurd h (by simp)
    · rw [Bool.not_eq_true] at hk
      rw [hk] at h ⊢
      exact ih h

theorem lookup_append_other {β : Type} (l : List (String × β)) (k q : String) (v : β)
    (h : q ≠ k) : (l ++ [(k, v)]).lookup q = l.lookup q := by
  induction l with
  | nil =>
    have hqk : (q == k) = false := beq_eq_false_iff_ne.mpr h
    simp [List.lookup, hqk]
  | cons a t ih =>
    rw [List.cons_append, List.lookup_cons, List.lookup_cons]
    by_cases hk : (q == a.1) = true
    · rw [hk]
    · rw [Bool.not_eq_true] at hk
      rw [hk]
      exact ih

theorem readFile_lookup_self (st : CacheState) (fs : String → String) (p : String) :
    ((readFile st fs p).1).file_cache.lookup p = some (readFile st fs p).2.1 := by
  cases h : st.file_cache.lookup p with
  | some c => simp [readFile, h]
  | none =>
    simp only [readFile, h]
    exact lookup_append_self _ _ _ h

theorem readFile_file_mono (st : CacheState) (fs : String → String) (p q : String) (c : String)
    (h : st.file_cache.lookup q = some c) :
    ((readFile st fs p).1).file_cache.lookup q = some c := by
  cases hp : st.file_cache.lookup p with
  | some d => simpa [readFile, hp] using h
  | none =>
    simp only [readFile, hp]
    exact lookup_append_some _ _ _ _ h

theorem readFile_parse_cache_eq (st : CacheState) (fs : String → String) (p : String) :
    ((readFile st fs p).1).parse_cache = st.parse_cache := by
  cases hp : st.file_cache.lookup p <;> simp [readFile, hp]

theorem readFile_delegated_none (st : CacheState) (fs : String → String) (p : String)
    (h : (readFile st fs p).2.2 = true) : st.file_cache.lookup p = none := by
  cases hp : st.file_cache.lookup p with
  | none => rfl
  | some c => simp [readFile, hp] at h

theorem parseFile_file_cache_eq (parse : String → ParseData) (st : CacheState)
    (fs : String → String) (p : String) :
    ((parseFile parse st fs p).1).file_cache = ((readFile st fs p).1).file_cache := by
  cases hq : ((readFile st fs p).1).parse_cache.lookup p <;> simp [parseFile, hq]

theorem parseFile_content_eq (parse : String → ParseData) (st : CacheState)
    (fs : String → String) (p : String) :
    (parseFile parse st fs p).2.1 = (readFile st fs p).2.1 := by
  cases hq : ((readFile st fs p).1).parse_cache.lookup p <;> simp [parseFile, hq]

theorem parseFile_flag_eq (parse : String → ParseData) (st : CacheState)
    (fs : String → String) (p : String) :
    (parseFile parse st fs p).2.2.2 = (readFile st fs p).2.2 := by
  cases hq : ((readFile st fs p).1).parse_cache.lookup p <;> simp [parseFile, hq]

theorem parseFile_lookup_self (parse : String → ParseData) (st : CacheState)
    (fs : String → String) (p : String) :
    ((parseFile parse st fs p).1).parse_cache.lookup p
      = some (parseFile parse st fs p).2.2.1 := by
  cases hq : ((readFile st fs p).1).parse_cache.lookup p with
  | some pd => simp [parseFile, hq]
  | none =>
    simp only [parseFile, hq]
    exact lookup_append_self _ _ _ hq

theorem parseFile_parse_mono (parse : String → ParseData) (st : CacheState)
    (fs : String → String) (p q : String) (pd : ParseData)
    (h : st.parse_cache.lookup q = some pd) :
    ((parseFile parse st fs p).1).parse_cache.lookup q = some pd := by
  have h' : ((readFile st fs p).1).parse_cache.lookup q = some pd := by
    rw [readFile_parse_cache_eq]
    exact h
  cases hq : ((readFile st fs p).1).parse_cache.lookup p with
  | some pd2 => simpa [parseFile, hq] using h'
  | none =>
    simp only [parseFile, hq]
    exact lookup_append_some _ _ _ _ h'

theorem runStep_file_mono (parse : String → ParseData) (st : CacheState)
    (op : CacheOp × (String → String)) (q c : String)
    (h : st.file_cache.lookup q = some c) :
    ((runStep parse st op).1).file_cache.lookup q = some c := by
  obtain ⟨o, fs⟩ := op
  cases o with
  | read p =>
    show ((readFile st fs p).1).file_cache.lookup q = some c
    exact readFile_file_mono st fs p q c h
  | parseOp p =>
    show ((parseFile parse st fs p).1).file_cache.lookup q = some c
    rw [parseFile_file_cache_eq]
    exact readFile_file_mono st fs p q c h

theorem runStep_parse_mono (parse : String → ParseData) (st : CacheState)
    (op : CacheOp × (String → String)) (q : String) (pd : ParseData)
    (h : st.parse_cache.lookup q = some pd) :
    ((runStep parse st op).1).parse_cache.lookup q = some pd := by
  obtain ⟨o, fs⟩ := op
  cases o with
  | read p =>
    show ((readFile st fs p).1).parse_cache.lookup q = some pd
    rw [readFile_parse_cache_eq]
    exact h
  | parseOp p =>
    show ((parseFile parse st fs p).1).parse_cache.lookup q = some pd
    exact parseFile_parse_mono parse st fs p q pd h

theorem runStep_event_content (parse : String → ParseData) (st : CacheState)
    (op : CacheOp × (String → String)) :
    ((runStep parse st op).1).file_cache.lookup (runStep parse st op).2.path
      = some (runStep parse st op).2.content := by
  obtain ⟨o, fs⟩ := op
  cases o with
  | read p =>
    show ((readFile st fs p).1).file_cache.lookup p = some (readFile st fs p).2.1
    exact readFile_lookup_self st fs p
  | parseOp p =>
    show ((parseFile parse st fs p).1).file_cache.lookup p = some (parseFile parse st fs p).2.1
    rw [parseFile_file_cache_eq, parseFile_content_eq]
    exact readFile_lookup_self st fs p

theorem runStep_event_parsed (parse : String → ParseData) (st : CacheState)
    (op : CacheOp × (String → String)) (pd : ParseData)
    (h : (runStep parse st op).2.parsed = some pd) :
    ((runStep parse st op).1).parse_cache.lookup (runStep parse st op).2.path = some pd := by
  obtain ⟨o, fs⟩ := op
  cases o with
  | read p =>
    exact Option.noConfusion (show (none : Option ParseData) = some pd from h)
  | parseOp p =>
    have hpd : (parseFile parse st fs p).2.2.1 = pd :=
      Option.some.inj (show some (parseFile parse st fs p).2.2.1 = some pd from h)
    show ((parseFile parse st fs p).1).parse_cache.lookup p = some pd
    rw [← hpd]
    exact parseFile_lookup_self parse st fs p

theorem runStep_delegated_none (parse : String → ParseData) (st : CacheState)
    (op : CacheOp × (String → String))
    (h : (runStep parse st op).2.delegated = true) :
    st.file_cache.lookup (runStep parse st op).2.path = none := by
  obtain ⟨o, fs⟩ := op
  cases o with
  | read p =>
    show st.file_cache.lookup p = none
    exact readFile_delegated_none st fs p h
  | parseOp p =>
    have h' : (parseFile parse st fs p).2.2.2 = true := h
    rw [parseFile_flag_eq] at h'
    show st.file_cache.lookup p = none
    exact readFile_delegated_none st fs p h'

theorem runTrace_file_mono (parse : String → ParseData)
    (ops : List (CacheOp × (String → String))) :
    ∀ (st : CacheState) (q c : String), st.file_cache.lookup q = some c →
      ((runTrace parse st ops).1).file_cache.lookup q = some c := by
  induction ops with
  | nil =>
    intro st q c h
    exact h
  | cons op rest ih =>
    intro st q c h
    show ((runTrace parse (runStep parse st op).1 rest).1).file_cache.lookup q = some c
    exact ih _ q c (runStep_file_mono parse st op q c h)

theorem runTrace_parse_mono (parse : String → ParseData)
    (ops : List (CacheOp × (String → String))) :
    ∀ (st : CacheState) (q : String) (pd : ParseData), st.parse_cache.lookup q = some pd →
      ((runTrace parse st ops).1).parse_cache.lookup q = some pd := by
  induction ops with
  | nil =>
    intro st q pd h
    exact h
  | cons op rest ih =>
    intro st q pd h
    show ((runTrace parse (runStep parse st op).1 rest).1).parse_cache.lookup q = some pd
    exact ih _ q pd (runStep_parse_mono parse st op q pd h)

theorem runTrace_content (parse : String → ParseData)
    (ops : List (CacheOp × (String → String))) :
    ∀ (st : CacheState) (e : ReadEvent), e ∈ (runTrace parse st ops).2 →
      ((runTrace parse st ops).1).file_cache.lookup e.path = some e.content := by
  induction ops with
  | nil =>
    intro st e he
    simp [runTrace] at he
  | cons op rest ih =>
    intro st e he
    have he' : e ∈ (runStep parse st op).2 :: (runTrace parse (runStep parse st op).1 rest).2 := he
    rcases List.mem_cons.mp he' with h1 | h2
    · subst h1
      show ((runTrace parse (runStep parse st op).1 rest).1).file_cache.lookup
          (runStep parse st op).2.path = some (runStep parse st op).2.content
      exact runTrace_file_mono parse rest _ _ _ (runStep_event_content parse st op)
    · show ((runTrace parse (runStep parse st op).1 rest).1).file_cache.lookup e.path
        = some e.content
      exact ih _ e h2

theorem runTrace_parsed (parse : String → ParseData)
    (ops : List (CacheOp × (String → String))) :
    ∀ (st : CacheState) (e : ReadEvent), e ∈ (runTrace parse st ops).2 →
      ∀ pd : ParseData, e.parsed = some pd →
        ((runTrace parse st ops).1).parse_cache.lookup e.path = some pd := by
  induction ops with
  | nil =>
    intro st e he
    simp [runTrace] at he
  | cons op rest ih =>
    intro st e he pd hpd
    have he' : e ∈ (runStep parse st op).2 :: (runTrace parse (runStep parse st op).1 rest).2 := he
    rcases List.mem_cons.mp he' with h1 | h2
    · subst h1
      show ((runTrace parse (runStep parse st op).1 rest).1).parse_cache.lookup
          (runStep parse st op).2.path = some pd
      exact runTrace_parse_mono parse rest _ _ _ (runStep_event_parsed parse st op pd hpd)
    · show ((runTrace parse (runStep parse st op).1 rest).1).parse_cache.lookup e.path = some pd
      exact ih _ e h2 pd hpd

/-- The number of delegate (`get_file_fn`) invocations recorded for path `p`. -/
def delegCount (events : List ReadEvent) (p : String) : Nat :=
  (events.filter (fun e => e.path == p && e.delegated)).length

theorem delegCount_cons (e : ReadEvent) (events : List ReadEvent) (p : String) :
    delegCount (e :: events) p =
      (if (e.path == p && e.delegated) = true then 1 else 0) + delegCount events p := by
  by_cases hb : (e.path == p && e.delegated) = true
  · simp only [delegCount, List.filter_cons, hb, if_pos, List.length_cons]
    omega
  · simp [delegCount, List.filter_cons, hb]

theorem runTrace_deleg_zero (parse : String → ParseData)
    (ops : List (CacheOp × (String → String))) :
    ∀ (st : CacheState) (p c : String), st.file_cache.lookup p = some c →
      delegCount (runTrace parse st ops).2 p = 0 := by
  induction ops with
  | nil =>
    intro st p c h
    simp [runTrace, delegCount]
  | cons op rest ih =>
    intro st p c h
    have hev : (runTrace parse st (op :: rest)).2
        = (runStep parse st op).2 :: (runTrace parse (runStep parse st op).1 rest).2 := rfl
    have hb : ((runStep parse st op).2.path == p && (runStep parse st op).2.delegated)
        = false := by
      by_contra hbc
      rw [Bool.not_eq_false, Bool.and_eq_true, beq_iff_eq] at hbc
      obtain ⟨hpath, hdel⟩ := hbc
      have hnone := runStep_delegated_none parse st op hdel
      rw [hpath] at hnone
      rw [hnone] at h
      exact Option.noConfusion h
    have h2 := ih (runStep parse st op).1 p c (runStep_file_mono parse st op p c h)
    rw [hev, delegCount_cons, hb]
    simpa using h2

theorem runTrace_deleg_le_one (parse : String → ParseData)
    (ops : List (CacheOp × (String → String))) :
    ∀ (st : CacheState) (p : String), delegCount (runTrace parse st ops).2 p ≤ 1 := by
  induction ops with
  | nil =>
    intro st p
    simp [runTrace, delegCount]
  | cons op rest ih =>
    intro st p
    have hev : (runTrace parse st (op :: rest)).2
        = (runStep parse st op).2 :: (runTrace parse (runStep parse st op).1 rest).2 := rfl
    rw [hev, delegCount_cons]
    by_cases hb : ((runStep parse st op).2.path == p && (runStep parse st op).2.delegated) = true
    · rw [if_pos hb]
      have hpath : (runStep parse st op).2.path = p := by
        rw [Bool.and_eq_true, beq_iff_eq] at hb
        exact hb.1
      have hc := runStep_event_content parse st op
      rw [hpath] at hc
      have hdel := runTrace_deleg_zero parse rest _ p _ hc
      omega
    · rw [if_neg hb]
      have := ih (runStep parse st op).1 p
      omega

/-- Each `parse_cache` entry is the parse of the corresponding `file_cache` entry. -/
def ParseConsistent (parse : String → ParseData) (st : CacheState) : Prop :=
  ∀ q pd, st.parse_cache.lookup q = some pd →
    ∃ c, st.file_cache.lookup q = some c ∧ pd = parse c

theorem parseConsistent_readFile (parse : String → ParseData) (st : CacheState)
    (fs : String → String) (p : String) (h : ParseConsistent parse st) :
    ParseConsistent parse (readFile st fs p).1 := by
  intro q pd hq
  rw [readFile_parse_cache_eq] at hq
  obtain ⟨c, hc, hpd⟩ := h q pd hq
  exact ⟨c, readFile_file_mono st fs p q c hc, hpd⟩

theorem parseConsistent_parseFile (parse : String → ParseData) (st : CacheState)
    (fs : String → String) (p : String) (h : ParseConsistent parse st) :
    ParseConsistent parse (parseFile parse st fs p).1 := by
  have hr : ParseConsistent parse (readFile st fs p).1 :=
    parseConsistent_readFile parse st fs p h
  cases hq : ((readFile st fs p).1).parse_cache.lookup p with
  | some pd =>
    have hstate : (parseFile parse st fs p).1 = (readFile st fs p).1 := by
      simp [parseFile, hq]
    intro q pd' hq'
    rw [hstate] at hq' ⊢
    exact hr q pd' hq'
  | none =>
    have hstate : (parseFile parse st fs p).1
        = { (readFile st fs p).1 with
            parse_cache := ((readFile st fs p).1).parse_cache
              ++ [(p, parse (readFile st fs p).2.1)] } := by
      simp [parseFile, hq]
    intro q pd' hq'
    rw [hstate] at hq' ⊢
    by_cases hqp : q = p
    · subst hqp
      rw [lookup_append_self _ _ _ hq] at hq'
      refine ⟨(readFile st fs q).2.1, ?_, (Option.some.inj hq').symm⟩
      show ((readFile st fs q).1).file_cache.lookup q = some (readFile st fs q).2.1
      exact readFile_lookup_self st fs q
    · rw [lookup_append_other _ _ _ _ hqp] at hq'
      obtain ⟨c, hc, hpd⟩ := hr q pd' hq'
      exact ⟨c, hc, hpd⟩

theorem parseConsistent_runStep (parse : String → ParseData) (st : CacheState)
    (op : CacheOp × (String → String)) (h : ParseConsistent parse st) :
    ParseConsistent parse (runStep parse st op).1 := by
  obtain ⟨o, fs⟩ := op
  cases o with
  | read p =>
    show ParseConsistent parse (readFile st fs p).1
    exact parseConsistent_readFile parse st fs p h
  | parseOp p =>
    show ParseConsistent parse (parseFile parse st fs p).1
    exact parseConsistent_parseFile parse st fs p h

theorem parseConsistent_runTrace (parse : String → ParseData)
    (ops : List (CacheOp × (String → String))) :
    ∀ st : CacheState, ParseConsistent parse st →
      ParseConsistent parse (runTrace parse st ops).1 := by
  induction ops with
  | nil =>
    intro st h
    exact h
  | cons op rest ih =>
    intro st h
    show ParseConsistent parse (runTrace parse (runStep parse st op).1 rest).1
    exact ih _ (parseConsistent_runStep parse st op h)

theorem parseConsistent_init (parse : String → ParseData) :
    ParseConsistent parse CacheState.init := by
  intro q pd hq
  simp [CacheState.init, List.lookup] at hq

/-- **C9.** Over any sequence of `_read_file` / `_parse_file` accesses issued by
the public operations (each access seeing the sandbox file system of that
moment, which may change between accesses), starting from fresh caches:
the `get_file_fn` delegate is invoked at most once per path; every access
observes exactly the content recorded in the final `_file_cache` for its path
(so all accesses of one path agree, even if the underlying file changed); every
parse returned equals the final `_parse_cache` entry for the path; the cached
parse for a path is the parse of that path's cached first-read content; and any
two accesses of the same path observe identical content. -/
theorem c9_read_cache (parse : String → ParseData)
    (ops : List (CacheOp × (String → String))) (p : String) :
    delegCount (runTrace parse CacheState.init ops).2 p ≤ 1 ∧
    (∀ e, e ∈ (runTrace parse CacheState.init ops).2 →
      ((runTrace parse CacheState.init ops).1).file_cache.lookup e.path = some e.content) ∧
    (∀ e, e ∈ (runTrace parse CacheState.init ops).2 → ∀ pd : ParseData, e.parsed = some pd →
      ((runTrace parse CacheState.init ops).1).parse_cache.lookup e.path = some pd) ∧
    (∀ e, e ∈ (runTrace parse CacheState.init ops).2 → ∀ pd : ParseData,
      ((runTrace parse CacheState.init ops).1).parse_cache.lookup e.path = some pd →
      pd = parse e.content) ∧
    (∀ e₁, e₁ ∈ (runTrace parse CacheState.init ops).2 →
     ∀ e₂, e₂ ∈ (runTrace parse CacheState.init ops).2 →
      e₁.path = e₂.path → e₁.content = e₂.content) := by
  refine ⟨runTrace_deleg_le_one parse ops _ p, runTrace_content parse ops _,
    runTrace_parsed parse ops _, ?_, ?_⟩
  · intro e he pd hpd
    obtain ⟨c, hc, hpdc⟩ :=
      parseConsistent_runTrace parse ops CacheState.init (parseConsistent_init parse)
        e.path pd hpd
    have hcontent := runTrace_content parse ops _ e he
    rw [hcontent] at hc
    have hce : e.content = c := Option.some.inj hc
    rw [hce]
    exact hpdc
  · intro e₁ h₁ e₂ h₂ hp
    have c₁ := runTrace_content parse ops _ e₁ h₁
    have c₂ := runTrace_content parse ops _ e₂ h₂
    rw [hp] at c₁
    rw [c₂] at c₁
    exact (Option.some.inj c₁).symm

/-- Concrete run of the C9 theorem: two reads of `"a"` while the sandbox file
changes from `"x"` to `"y"` — the delegate fires at most once and the first
event's content is the cached entry. -/
theorem c9_witness :
    delegCount (runTrace (fun _ => emptyParse) CacheState.init
        [(CacheOp.read "a", fun _ => "x"), (CacheOp.read "a", fun _ => "y")]).2 "a" ≤ 1 ∧
    ((runTrace (fun _ => emptyParse) CacheState.init
        [(CacheOp.read "a", fun _ => "x"), (CacheOp.read "a", fun _ => "y")]).1).file_cache.lookup
        (ReadEvent.mk "a" "x" true none).path
      = some (ReadEvent.mk "a" "x" true none).content := by
  have h := c9_read_cache (fun _ => emptyParse)
    [(CacheOp.read "a", fun _ => "x"), (CacheOp.read "a", fun _ => "y")] "a"
  refine ⟨h.1, h.2.1 (ReadEvent.mk "a" "x" true none) ?_⟩
  have hev : (runTrace (fun _ => emptyParse) CacheState.init
      [(CacheOp.read "a", fun _ => "x"), (CacheOp.read "a", fun _ => "y")]).2
      = [ReadEvent.mk "a" "x" true none, ReadEvent.mk "a" "x" false none] := rfl
  rw [hev]
  exact List.mem_cons_self _ _

/-! ### Submission check (claim C8)

`LLMIDEAgent._check_submission` (llm_ide_agent.py:424-428):
`lines = output.get("output", "").lstrip().splitlines(keepends=True)`, then if
`lines` is nonempty and `lines[0].strip()` is one of the two sentinel tokens,
raise `Submitted("".join(lines[1:]))`.  The raised payload is modelled as
`some payload`; `none` means no submission. -/

/-- `_check_submission`, translated from the source: `some payload` iff
`Submitted(payload)` is raised. -/
def checkSubmission (output : List Char) : Option (List Char) :=
  match splitAfterNl (lstripChars output) with
  | [] => none
  | l0 :: rest =>
    if stripChars l0 = "MINI_SWE_AGENT_FINAL_OUTPUT".toList
        ∨ stripChars l0 = "COMPLETE_TASK_AND_SUBMIT_FINAL_OUTPUT".toList
    then some rest.flatten
    else none

/-- A line whose `strip()` is empty, i.e. a blank (whitespace-only) line. -/
def isBlankLine (l : List Char) : Bool := (stripChars l).isEmpty

/-- The spec's phrasing: look at the first non-blank line of the raw output,
compare its stripped form against the sentinels, and return the text that
follows that line. -/
def specCheckSubmission (output : List Char) : Option (List Char) :=
  match (splitAfterNl output).dropWhile isBlankLine with
  | [] => none
  | l0 :: rest =>
    if stripChars l0 = "MINI_SWE_AGENT_FINAL_OUTPUT".toList
        ∨ stripChars l0 = "COMPLETE_TASK_AND_SUBMIT_FINAL_OUTPUT".toList
    then some rest.flatten
    else none

theorem dropWhile_isPyWs_idem (l : List Char) :
    (l.dropWhile isPyWs).dropWhile isPyWs = l.dropWhile isPyWs := by
  induction l with
  | nil => rfl
  | cons c cs ih =>
    by_cases h : isPyWs c = true
    · simp [List.dropWhile_cons, h, ih]
    · simp [List.dropWhile_cons, h]

theorem stripChars_dropWhile (l : List Char) :
    stripChars (l.dropWhile isPyWs) = stripChars l := by
  simp [stripChars, dropWhile_isPyWs_idem]

theorem stripChars_eq_nil_iff (l : List Char) :
    stripChars l = [] ↔ l.dropWhile isPyWs = [] := by
  induction l with
  | nil => simp [stripChars]
  | cons c cs ih =>
    cases h : isPyWs c with
    | true =>
      have h1 : stripChars (c :: cs) = stripChars cs := by
        simp [stripChars, List.dropWhile_cons, h]
      rw [h1, List.dropWhile_cons, if_pos h]
      exact ih
    | false =>
      have hd : (c :: cs).dropWhile isPyWs = c :: cs := by
        rw [List.dropWhile_cons, if_neg (by rw [h]; exact Bool.false_ne_true)]
      rw [hd]
      constructor
      · intro hstrip
        exfalso
        simp only [stripChars, hd] at hstrip
        rw [List.reverse_eq_nil_iff, List.dropWhile_eq_nil_iff] at hstrip
        have hcw := hstrip c (by simp)
        rw [h] at hcw
        exact Bool.false_ne_true hcw
      · intro hcontra
        exact absurd hcontra (List.cons_ne_nil c cs)

theorem isBlankLine_iff (l : List Char) :
    isBlankLine l = true ↔ l.dropWhile isPyWs = [] := by
  unfold isBlankLine
  rw [List.isEmpty_iff]
  exact stripChars_eq_nil_iff l

theorem isBlankLine_cons_ws (c : Char) (l : List Char) (h : isPyWs c = true) :
    isBlankLine (c :: l) = isBlankLine l := by
  simp [isBlankLine, stripChars, List.dropWhile_cons, h]

theorem splitAfterNl_lstrip (output : List Char) :
    splitAfterNl (lstripChars output)
      = ((splitAfterNl output).dropWhile isBlankLine).modifyHead
          (fun l => l.dropWhile isPyWs) := by
  induction output with
  | nil => rfl
  | cons c cs ih =>
    cases hws : isPyWs c with
    | false =>
      have hl : lstripChars (c :: cs) = c :: cs := by
        simp [lstripChars, List.dropWhile_cons, hws]
      rw [hl]
      have hnl : ¬ c = '\n' := by
        intro hc
        subst hc
        simp [isPyWs] at hws
      cases hsp : splitAfterNl cs with
      | nil =>
        have h1 : splitAfterNl (c :: cs) = [[c]] := by
          simp [splitAfterNl, hnl, hsp]
        rw [h1]
        have hb : isBlankLine [c] = false := by
          rw [Bool.eq_false_iff]
          intro hbl
          have h2 := (isBlankLine_iff [c]).mp hbl
          rw [List.dropWhile_cons, if_neg (by rw [hws]; exact Bool.false_ne_true)] at h2
          exact List.cons_ne_nil c [] h2
        simp [List.dropWhile_cons, hb, List.modifyHead, hws]
      | cons l ls =>
        have h1 : splitAfterNl (c :: cs) = (c :: l) :: ls := by
          simp [splitAfterNl, hnl, hsp]
        rw [h1]
        have hb : isBlankLine (c :: l) = false := by
          rw [Bool.eq_false_iff]
          intro hbl
          have h2 := (isBlankLine_iff (c :: l)).mp hbl
          rw [List.dropWhile_cons, if_neg (by rw [hws]; exact Bool.false_ne_true)] at h2
          exact List.cons_ne_nil c l h2
        simp [List.dropWhile_cons, hb, List.modifyHead, hws]
    | true =>
      have hl : lstripChars (c :: cs) = lstripChars cs := by
        simp [lstripChars, List.dropWhile_cons, hws]
      rw [hl, ih]
      by_cases hc : c = '\n'
      · subst hc
        have h1 : splitAfterNl ('\n' :: cs) = ['\n'] :: splitAfterNl cs := by
          simp [splitAfterNl]
        rw [h1]
        have hb : isBlankLine ['\n'] = true := by decide
        simp [List.dropWhile_cons, hb]
      · cases hsp : splitAfterNl cs with
        | nil =>
          have h1 : splitAfterNl (c :: cs) = [[c]] := by
            simp [splitAfterNl, hc, hsp]
          rw [h1]
          have hb : isBlankLine [c] = true := by
            rw [isBlankLine_iff]
            simp [List.dropWhile_cons, hws]
          simp [List.dropWhile_cons, hb]
        | cons l ls =>
          have h1 : splitAfterNl (c :: cs) = (c :: l) :: ls := by
            simp [splitAfterNl, hc, hsp]
          rw [h1]
          cases hbl : isBlankLine l with
          | true =>
            have hbcl : isBlankLine (c :: l) = true := by
              rw [isBlankLine_cons_ws c l hws, hbl]
            simp [List.dropWhile_cons, hbl, hbcl]
          | false =>
            have hbcl : isBlankLine (c :: l) = false := by
              rw [isBlankLine_cons_ws c l hws, hbl]
            simp [List.dropWhile_cons, hbl, hbcl, List.modifyHead, hws]

theorem flatten_splitAfterNl (l : List Char) : (splitAfterNl l).flatten = l := by
  induction l with
  | nil => rfl
  | cons c cs ih =>
    by_cases hc : c = '\n'
    · subst hc
      have h1 : splitAfterNl ('\n' :: cs) = ['\n'] :: splitAfterNl cs := by
        simp [splitAfterNl]
      rw [h1, List.flatten_cons, ih]
      rfl
    · cases hsp : splitAfterNl cs with
      | nil =>
        have hcs : cs = [] := by
          rw [hsp] at ih
          simpa using ih.symm
        have h1 : splitAfterNl (c :: cs) = [[c]] := by
          simp [splitAfterNl, hc, hsp]
        rw [h1, hcs]
        rfl
      | cons l ls =>
        have h1 : splitAfterNl (c :: cs) = (c :: l) :: ls := by
          simp [splitAfterNl, hc, hsp]
        rw [h1]
        rw [hsp] at ih
        simp only [List.flatten_cons] at ih ⊢
        rw [List.cons_append, ih]

/-- **C8.** `_check_submission` raises `Submitted` exactly when the first
non-blank line of the command output, stripped of surrounding whitespace, is
one of the two sentinel tokens, and the payload is exactly the text following
that sentinel line: the code equals the spec-side first-non-blank-line rule,
and any successful submission decomposes the output as whitespace prefix ++
sentinel line ++ payload.  Non-sentinel first non-blank lines never submit. -/
theorem c8_check_submission (output : List Char) :
    checkSubmission output = specCheckSubmission output ∧
    (∀ sub : List Char, checkSubmission output = some sub →
      ∃ pre l0 : List Char, output = pre ++ l0 ++ sub
        ∧ (∀ c ∈ pre, isPyWs c = true)
        ∧ (stripChars l0 = "MINI_SWE_AGENT_FINAL_OUTPUT".toList
            ∨ stripChars l0 = "COMPLETE_TASK_AND_SUBMIT_FINAL_OUTPUT".toList)) := by
  have heq : checkSubmission output = specCheckSubmission output := by
    unfold checkSubmission specCheckSubmission
    rw [splitAfterNl_lstrip]
    cases hd : (splitAfterNl output).dropWhile isBlankLine with
    | nil => rfl
    | cons l0 rest =>
      simp only [List.modifyHead]
      rw [stripChars_dropWhile]
  refine ⟨heq, ?_⟩
  intro sub hsub
  rw [heq] at hsub
  unfold specCheckSubmission at hsub
  cases hd : (splitAfterNl output).dropWhile isBlankLine with
  | nil =>
    rw [hd] at hsub
    exact Option.noConfusion hsub
  | cons l0 rest =>
    rw [hd] at hsub
    have hsub2 : (if stripChars l0 = "MINI_SWE_AGENT_FINAL_OUTPUT".toList
        ∨ stripChars l0 = "COMPLETE_TASK_AND_SUBMIT_FINAL_OUTPUT".toList
      then some rest.flatten else none) = some sub := hsub
    by_cases hsent : stripChars l0 = "MINI_SWE_AGENT_FINAL_OUTPUT".toList
        ∨ stripChars l0 = "COMPLETE_TASK_AND_SUBMIT_FINAL_OUTPUT".toList
    · rw [if_pos hsent] at hsub2
      have hsubeq : sub = rest.flatten := (Option.some.inj hsub2).symm
      refine ⟨((splitAfterNl output).takeWhile isBlankLine).flatten, l0, ?_, ?_, hsent⟩
      · have hsplit : splitAfterNl output
            = (splitAfterNl output).takeWhile isBlankLine ++ (l0 :: rest) := by
          rw [← hd]
          exact (List.takeWhile_append_dropWhile _ _).symm
        have h2 := congrArg List.flatten hsplit
        rw [List.flatten_append, List.flatten_cons] at h2
        rw [hsubeq, List.append_assoc, ← h2]
        exact (flatten_splitAfterNl output).symm
      · intro ch hch
        rw [List.mem_flatten] at hch
        obtain ⟨b, hb, hcb⟩ := hch
        have hblank : isBlankLine b = true := List.mem_takeWhile_imp hb
        have hall := (isBlankLine_iff b).mp hblank
        rw [List.dropWhile_eq_nil_iff] at hall
        exact hall ch hcb
    · rw [if_neg hsent] at hsub2
      exact Option.noConfusion hsub2

/-- Concrete run of the C8 theorem: a blank line, then the sentinel line, then
`"answer\n"` — `_check_submission` submits exactly `"answer\n"`. -/
theorem c8_witness :
    checkSubmission ("  \nMINI_SWE_AGENT_FINAL_OUTPUT\nanswer\n").toList
      = specCheckSubmission ("  \nMINI_SWE_AGENT_FINAL_OUTPUT\nanswer\n").toList ∧
    ∃ pre l0 : List Char,
      ("  \nMINI_SWE_AGENT_FINAL_OUTPUT\nanswer\n").toList
          = pre ++ l0 ++ ("answer\n").toList
        ∧ (∀ c ∈ pre, isPyWs c = true)
        ∧ (stripChars l0 = "MINI_SWE_AGENT_FINAL_OUTPUT".toList
            ∨ stripChars l0 = "COMPLETE_TASK_AND_SUBMIT_FINAL_OUTPUT".toList) := by
  have h := c8_check_submission ("  \nMINI_SWE_AGENT_FINAL_OUTPUT\nanswer\n").toList
  exact ⟨h.1, h.2 ("answer\n").toList (by decide)⟩

/-! ### Reflection processing (claim C10)

`LLMIDEAgent._process_reflection` (llm_ide_agent.py:291-306) with `_parse_tag`
(llm_ide_agent.py:270-272).  `re.search(rf"<tag>(.*?)</tag>", content,
re.DOTALL)` matches at the first `<tag>` occurrence followed by a `</tag>`,
with the lazy group ending at the first `</tag>` after it; `group(1).strip()`
on a match, `""` otherwise. -/

/-- Index of the first occurrence of `needle` in `hay`. -/
def findSub (needle : List Char) : List Char → Option Nat
  | [] => if needle = [] then some 0 else none
  | c :: cs =>
    if needle.isPrefixOf (c :: cs) then some 0
    else (findSub needle cs).map (fun i => i + 1)

/-- `_parse_tag(content, tag)`. -/
def parse_tag (content : List Char) (tag : List Char) : List Char :=
  let openT := '<' :: (tag ++ ['>'])
  let closeT := '<' :: '/' :: (tag ++ ['>'])
  match findSub openT content with
  | none => []
  | some i =>
    match findSub closeT (content.drop (i + openT.length)) with
    | none => []
    | some j => stripChars ((content.drop (i + openT.length)).take j)

/-- `str.lower()` over the ASCII letters the sentinel decisions use. -/
def toLowerList (l : List Char) : List Char := l.map Char.toLower

/-- `_process_reflection`: returns the state, the `valid` verdict, and whether
the invalid-overflow `NotImplementedError` is raised. -/
def process_reflection (m : ActionManager) (content : List Char) :
    ActionManager × Bool × Bool :=
  let decision := toLowerList (stripChars (parse_tag content ("decision".toList)))
  let summary := parse_tag content ("summary".toList)
  let lessons := parse_tag content ("lessons".toList)
  let valid : Bool := decide (decision ≠ "reject".toList)
  let m1 := m.set_reflection valid (String.mk lessons) (String.mk summary)
  if valid then (m1.commit_admissible, valid, false)
  else
    let r := m1.commit_invalid
    (r.1, valid, r.2)

theorem set_reflection_some (m : ActionManager) (t : Nat) (v : Bool) (L S : String)
    (ht : m.temp_node = some t) :
    m.set_reflection v L S
      = m.setNode t (fun n => { n with valid := some v, lessons := L, summary := S }) := by
  simp [ActionManager.set_reflection, ht]

theorem commit_admissible_effects (m : ActionManager) (t : Nat)
    (ht : m.temp_node = some t) (htl : t < m.arena.length)
    (hcl : m.current < m.arena.length) (htc : t ≠ m.current) :
    m.commit_admissible.current = t ∧
    m.commit_admissible.temp_node = none ∧
    m.commit_admissible.node t = { m.node t with parent := some m.current } ∧
    m.commit_admissible.node m.current
      = { m.node m.current with children := (m.node m.current).children ++ [t] } := by
  simp only [ActionManager.commit_admissible, ht, ActionManager.current_setNode]
  refine ⟨by trivial, by trivial, ?_, ?_⟩
  · have h3 : ((m.setNode t (fun n => { n with parent := some m.current })).setNode m.current
        (fun n => { n with children := n.children ++ [t] })).node t
        = { m.node t with parent := some m.current } := by
      rw [ActionManager.node_setNode_other _ _ _ _ htc,
        ActionManager.node_setNode_self _ _ _ htl]
    exact h3
  · have h4 : ((m.setNode t (fun n => { n with parent := some m.current })).setNode m.current
        (fun n => { n with children := n.children ++ [t] })).node m.current
        = { m.node m.current with children := (m.node m.current).children ++ [t] } := by
      rw [ActionManager.node_setNode_self _ _ _
        (show m.current < (m.setNode t
          (fun n => { n with parent := some m.current })).arena.length by simpa using hcl)]
      rw [ActionManager.node_setNode_other _ _ _ _ (Ne.symm htc)]
    exact h4

theorem commit_invalid_effects (m : ActionManager) (t : Nat)
    (ht : m.temp_node = some t) (htl : t < m.arena.length)
    (hcl : m.current < m.arena.length) (htc : t ≠ m.current) :
    m.commit_invalid.1.current = m.current ∧
    m.commit_invalid.1.temp_node = none ∧
    m.commit_invalid.1.node t = { m.node t with parent := some m.current } ∧
    m.commit_invalid.1.node m.current
      = { m.node m.current with
          invalid_ops := (m.node m.current).invalid_ops ++ [t] } := by
  simp only [ActionManager.commit_invalid, ht, ActionManager.current_setNode]
  refine ⟨by trivial, by trivial, ?_, ?_⟩
  · have h3 : ((m.setNode t (fun n => { n with parent := some m.current })).setNode m.current
        (fun n => { n with invalid_ops := n.invalid_ops ++ [t] })).node t
        = { m.node t with parent := some m.current } := by
      rw [ActionManager.node_setNode_other _ _ _ _ htc,
        ActionManager.node_setNode_self _ _ _ htl]
    exact h3
  · have h4 : ((m.setNode t (fun n => { n with parent := some m.current })).setNode m.current
        (fun n => { n with invalid_ops := n.invalid_ops ++ [t] })).node m.current
        = { m.node m.current with
            invalid_ops := (m.node m.current).invalid_ops ++ [t] } := by
      rw [ActionManager.node_setNode_self _ _ _
        (show m.current < (m.setNode t
          (fun n => { n with parent := some m.current })).arena.length by simpa using hcl)]
      rw [ActionManager.node_setNode_other _ _ _ _ (Ne.symm htc)]
    exact h4

theorem set_reflection_commit_admissible (m : ActionManager) (t : Nat) (v : Bool)
    (L S : String) (ht : m.temp_node = some t) (htl : t < m.arena.length)
    (hcl : m.current < m.arena.length) (htc : t ≠ m.current) :
    (m.set_reflection v L S).commit_admissible.current = t ∧
    (m.set_reflection v L S).commit_admissible.temp_node = none ∧
    ((m.set_reflection v L S).commit_admissible.node t).parent = some m.current ∧
    ((m.set_reflection v L S).commit_admissible.node t).valid = some v ∧
    ((m.set_reflection v L S).commit_admissible.node m.current).children
      = (m.node m.current).children ++ [t] ∧
    ((m.set_reflection v L S).commit_admissible.node m.current).invalid_ops
      = (m.node m.current).invalid_ops := by
  rw [set_reflection_some m t v L S ht]
  have ht1 : (m.setNode t
      (fun n => { n with valid := some v, lessons := L, summary := S })).temp_node
      = some t := by
    rw [ActionManager.temp_setNode, ht]
  have htl1 : t < (m.setNode t
      (fun n => { n with valid := some v, lessons := L, summary := S })).arena.length := by
    simpa using htl
  have hcl1 : m.current < (m.setNode t
      (fun n => { n with valid := some v, lessons := L, summary := S })).arena.length := by
    simpa using hcl
  obtain ⟨e1, e2, e3, e4⟩ := commit_admissible_effects _ t ht1 htl1 hcl1 htc
  simp only [ActionManager.current_setNode] at e1 e2 e3 e4
  refine ⟨e1, e2, ?_, ?_, ?_, ?_⟩
  · rw [e3]
  · rw [e3, ActionManager.node_setNode_self _ _ _ htl]
  · rw [e4, ActionManager.node_setNode_other _ _ _ _ (Ne.symm htc)]
  · rw [e4, ActionManager.node_setNode_other _ _ _ _ (Ne.symm htc)]

theorem set_reflection_commit_invalid (m : ActionManager) (t : Nat) (v : Bool)
    (L S : String) (ht : m.temp_node = some t) (htl : t < m.arena.length)
    (hcl : m.current < m.arena.length) (htc : t ≠ m.current) :
    (m.set_reflection v L S).commit_invalid.1.current = m.current ∧
    (m.set_reflection v L S).commit_invalid.1.temp_node = none ∧
    ((m.set_reflection v L S).commit_invalid.1.node t).parent = some m.current ∧
    ((m.set_reflection v L S).commit_invalid.1.node t).valid = some v ∧
    ((m.set_reflection v L S).commit_invalid.1.node m.current).invalid_ops
      = (m.node m.current).invalid_ops ++ [t] ∧
    ((m.set_reflection v L S).commit_invalid.1.node m.current).children
      = (m.node m.current).children := by
  rw [set_reflection_some m t v L S ht]
  have ht1 : (m.setNode t
      (fun n => { n with valid := some v, lessons := L, summary := S })).temp_node
      = some t := by
    rw [ActionManager.temp_setNode, ht]
  have htl1 : t < (m.setNode t
      (fun n => { n with valid := some v, lessons := L, summary := S })).arena.length := by
    simpa using htl
  have hcl1 : m.current < (m.setNode t
      (fun n => { n with valid := some v, lessons := L, summary := S })).arena.length := by
    simpa using hcl
  obtain ⟨e1, e2, e3, e4⟩ := commit_invalid_effects _ t ht1 htl1 hcl1 htc
  simp only [ActionManager.current_setNode] at e1 e2 e3 e4
  refine ⟨e1, e2, ?_, ?_, ?_, ?_⟩
  · rw [e3]
  · rw [e3, ActionManager.node_setNode_self _ _ _ htl]
  · rw [e4, ActionManager.node_setNode_other _ _ _ _ (Ne.symm htc)]
  · rw [e4, ActionManager.node_setNode_other _ _ _ _ (Ne.symm htc)]

/-- **C10.** With a temp node pending: unless the `<decision>` tag's content is
exactly `"reject"` after trimming and lowercasing (a missing tag yields `""`),
`_process_reflection` sets `valid = true` on the pending node and commits it
as an admissible child of `current` (which moves to it); exactly the decision
`"reject"` sets `valid = false` and routes the node to `current.invalid_ops`,
leaving `current` and its children unchanged. -/
theorem c10_process_reflection (m : ActionManager) (content : List Char) (t : Nat)
    (ht : m.temp_node = some t) (htl : t < m.arena.length)
    (hcl : m.current < m.arena.length) (htc : t ≠ m.current) :
    (toLowerList (stripChars (parse_tag content ("decision".toList))) ≠ "reject".toList →
      (process_reflection m content).2.1 = true ∧
      (process_reflection m content).1.current = t ∧
      (process_reflection m content).1.temp_node = none ∧
      ((process_reflection m content).1.node t).parent = some m.current ∧
      ((process_reflection m content).1.node t).valid = some true ∧
      ((process_reflection m content).1.node m.current).children
        = (m.node m.current).children ++ [t] ∧
      ((process_reflection m content).1.node m.current).invalid_ops
        = (m.node m.current).invalid_ops) ∧
    (toLowerList (stripChars (parse_tag content ("decision".toList))) = "reject".toList →
      (process_reflection m content).2.1 = false ∧
      (process_reflection m content).1.current = m.current ∧
      (process_reflection m content).1.temp_node = none ∧
      ((process_reflection m content).1.node t).parent = some m.current ∧
      ((process_reflection m content).1.node t).valid = some false ∧
      ((process_reflection m content).1.node m.current).invalid_ops
        = (m.node m.current).invalid_ops ++ [t] ∧
      ((process_reflection m content).1.node m.current).children
        = (m.node m.current).children) := by
  constructor
  · intro hdec
    have hv : decide (toLowerList (stripChars (parse_tag content ("decision".toList)))
        ≠ "reject".toList) = true := decide_eq_true hdec
    have hred : process_reflection m content
        = ((m.set_reflection true (String.mk (parse_tag content ("lessons".toList)))
            (String.mk (parse_tag content ("summary".toList)))).commit_admissible,
          true, false) := by
      simp only [process_reflection]
      rw [hv]
      simp
    rw [hred]
    obtain ⟨e1, e2, e3, e4, e5, e6⟩ := set_reflection_commit_admissible m t true
      (String.mk (parse_tag content ("lessons".toList)))
      (String.mk (parse_tag content ("summary".toList))) ht htl hcl htc
    exact ⟨rfl, e1, e2, e3, e4, e5, e6⟩
  · intro hdec
    have hv : decide (toLowerList (stripChars (parse_tag content ("decision".toList)))
        ≠ "reject".toList) = false :=
      decide_eq_false_iff_not.mpr (not_not_intro hdec)
    have hred : process_reflection m content
        = ((m.set_reflection false (String.mk (parse_tag content ("lessons".toList)))
            (String.mk (parse_tag content ("summary".toList)))).commit_invalid.1,
          false,
          (m.set_reflection false (String.mk (parse_tag content ("lessons".toList)))
            (String.mk (parse_tag content ("summary".toList)))).commit_invalid.2) := by
      simp only [process_reflection]
      rw [hv]
      simp
    rw [hred]
    obtain ⟨e1, e2, e3, e4, e5, e6⟩ := set_reflection_commit_invalid m t false
      (String.mk (parse_tag content ("lessons".toList)))
      (String.mk (parse_tag content ("summary".toList))) ht htl hcl htc
    exact ⟨rfl, e1, e2, e3, e4, e5, e6⟩

/-- Concrete state for the C10 scenario: one committed node (id 1, current)
and a fresh pending temp node (id 2). -/
def c10State : ActionManager :=
  ((((ActionManager.init 3).create_temp_node "A" "a" none).1.commit_admissible).create_temp_node
    "B" "b" none).1

/-- Concrete runs of the C10 theorem: a response with no `<decision>` tag
commits the pending node admissibly; `<decision> REJECT </decision>` (mixed
case, padded) routes it to `invalid_ops`. -/
theorem c10_witness :
    (process_reflection c10State ("no decision tag here").toList).2.1 = true ∧
    (process_reflection c10State ("no decision tag here").toList).1.current = 2 ∧
    ((process_reflection c10State ("no decision tag here").toList).1.node 2).parent = some 1 ∧
    (process_reflection c10State ("<decision> REJECT </decision>").toList).2.1 = false ∧
    ((process_reflection c10State
        ("<decision> REJECT </decision>").toList).1.node 1).invalid_ops = [2] := by
  have ha := c10_process_reflection c10State ("no decision tag here").toList 2
    (by decide) (by decide) (by decide) (by decide)
  have hb := c10_process_reflection c10State ("<decision> REJECT </decision>").toList 2
    (by decide) (by decide) (by decide) (by decide)
  have ha1 := ha.1 (by decide)
  have hb1 := hb.2 (by decide)
  refine ⟨ha1.1, ha1.2.1, ?_, hb1.1, ?_⟩
  · exact ha1.2.2.2.1
  · exact (hb1.2.2.2.2.2.1).trans (by decide)

/-! ### Action processing (claim C2)

`LLMIDEAgent._process_action` (llm_ide_agent.py:310-335) with `_parse_actions`,
`_strip_backticks` (274-287), `_execute_actions` (380-395) and
`_execute_command` (339-353).  `env.execute` is abstracted as an oracle per
command: either a timeout (the `except` branch raises `ExecutionTimeoutError`)
or an output/returncode pair; `_get_git_diff` as an oracle string. -/

/-- Python `\w` over the ASCII range. -/
def isWordChar (c : Char) : Bool := c.isAlphanum || c = '_'

/-- `_strip_backticks` (llm_ide_agent.py:274-283). -/
def strip_backticks (text : List Char) : List Char :=
  let s := stripChars text
  if ("```".toList).isPrefixOf s then
    let s1 := (s.drop 3).dropWhile isWordChar
    let s2 := match s1 with
      | '\n' :: r => r
      | r => r
    let s3 := if ("```".toList).isSuffixOf s2 then
        let r := s2.take (s2.length - 3)
        match r.getLast? with
        | some '\n' => r.dropLast
        | _ => r
      else s2
    stripChars s3
  else if s.head? = some '`' ∧ s.getLast? = some '`' then
    stripChars ((s.drop 1).dropLast)
  else s

/-- Successive non-overlapping lazy matches of `<action>(.*?)</action>`
(`re.finditer`), fuel-bounded; each iteration consumes at least 17 characters,
so `content.length` fuel never runs out. -/
def parseActionGroupsAux : Nat → List Char → List (List Char)
  | 0, _ => []
  | fuel + 1, s =>
    match findSub ("<action>".toList) s with
    | none => []
    | some i =>
      let rest := s.drop (i + 8)
      match findSub ("</action>".toList) rest with
      | none => []
      | some j => rest.take j :: parseActionGroupsAux fuel (rest.drop (j + 9))

/-- `_parse_actions` (llm_ide_agent.py:285-287). -/
def parse_actions (content : List Char) : List (List Char) :=
  ((parseActionGroupsAux content.length content).map strip_backticks).filter
    (fun a => !a.isEmpty)

/-- One `env.execute` result: a timeout exception or output/returncode. -/
inductive ExecResult where
  | timeout
  | ok (output : String) (returncode : Int)

/-- Outcome of `_process_action`: `FormatError` raised, `ExecutionTimeoutError`
raised, or normal return of observations and last returncode. -/
inductive PAOutcome where
  | formatError
  | timeout
  | ok (observations : List ActionObservation) (returncode : Int)
deriving DecidableEq, Repr

/-- `ActionProperty(property_str)` with `ValueError` mapped to `None`. -/
def parseActionProperty (s : List Char) : Option ActionProperty :=
  if s = "exploitative".toList then some ActionProperty.exploitative
  else if s = "exploratory".toList then some ActionProperty.exploratory
  else none

/-- The loop of `_execute_actions`: accumulate observations, stop at the first
nonzero returncode; a timeout propagates, discarding the local accumulator. -/
def executeActionsAux (ex : String → ExecResult) :
    List String → List ActionObservation → Int → Option (List ActionObservation × Int)
  | [], obs, last => some (obs, last)
  | a :: rest, obs, _ =>
    match ex a with
    | .timeout => none
    | .ok out rc =>
      let obs2 := obs ++ [⟨a, "[returncode: " ++ toString rc ++ "]\n"
          ++ String.mk (stripChars out.toList)⟩]
      if rc ≠ 0 then some (obs2, rc) else executeActionsAux ex rest obs2 rc

/-- `_process_action`: format check, `create_temp_node`, `_execute_actions`
(with the `code_change` update on normal completion), then `set_observation`.
Returns the agent state as left by the call, with the outcome. -/
def process_action (ex : String → ExecResult) (diff : String) (m : ActionManager)
    (content : String) : ActionManager × PAOutcome :=
  let actions := (parse_actions content.toList).map String.mk
  if actions.isEmpty then (m, .formatError)
  else
    let m1 := (m.create_temp_node
      (String.mk (parse_tag content.toList ("thoughts".toList)))
      (String.intercalate "\n" actions)
      (parseActionProperty (toLowerList (stripChars
        (parse_tag content.toList ("property".toList)))))).1
    match executeActionsAux ex actions [] 0 with
    | none => (m1, .timeout)
    | some (obs, rc) =>
      let m2 := match m1.active_node with
        | some i => m1.setNode i (fun n => { n with code_change := diff })
        | none => m1
      (m2.set_observation obs, .ok obs rc)

/-- Concrete response for the C2 counterexample. -/
def c2Content : String := "<action>sleep 999</action>"

/-- C2 counterexample: when the single action times out, the raise happens
*before* `set_observation`, so the tree is left changed (a pending temp node
exists) with **no** observations recording the failure — contradicting the
claim that the timeout is raised only after observation capture and that the
tree is left unchanged. -/
theorem c2_counterexample :
    ((process_action (fun _ => ExecResult.timeout) "" (ActionManager.init 3) c2Content).2
        = PAOutcome.timeout) ∧
    ((process_action (fun _ => ExecResult.timeout) "" (ActionManager.init 3)
        c2Content).1.temp_node = some 1) ∧
    (((process_action (fun _ => ExecResult.timeout) "" (ActionManager.init 3)
        c2Content).1.node 1).observations = []) ∧
    ((process_action (fun _ => ExecResult.timeout) "" (ActionManager.init 3)
        c2Content).1.arena.length ≠ (ActionManager.init 3).arena.length) := by decide

/-- **C2** (amended).  A format failure (no parsed action) is raised before
`create_temp_node` and leaves the state exactly unchanged; an execution
timeout is raised before `set_observation`, leaving a pending temp node with
**empty** observations while `current` and every previously existing node are
unchanged. -/
theorem c2_amended_process_action (ex : String → ExecResult) (diff : String)
    (m : ActionManager) (content : String) :
    (parse_actions content.toList = [] →
      process_action ex diff m content = (m, PAOutcome.formatError)) ∧
    ((process_action ex diff m content).2 = PAOutcome.timeout →
      (process_action ex diff m content).1.temp_node = some m.arena.length ∧
      ((process_action ex diff m content).1.node m.arena.length).observations = [] ∧
      (process_action ex diff m content).1.current = m.current ∧
      ∀ j, j < m.arena.length →
        (process_action ex diff m content).1.node j = m.node j) := by
  have hfmt : parse_actions content.toList = [] →
      process_action ex diff m content = (m, PAOutcome.formatError) := by
    intro he
    have hie : ((parse_actions content.toList).map String.mk).isEmpty = true := by
      rw [he]
      rfl
    simp only [process_action]
    rw [hie]
    exact if_pos rfl
  constructor
  · exact hfmt
  · intro htime
    by_cases he : parse_actions content.toList = []
    · exfalso
      have h1 : process_action ex diff m content = (m, PAOutcome.formatError) := hfmt he
      rw [h1] at htime
      exact PAOutcome.noConfusion
        (show PAOutcome.formatError = PAOutcome.timeout from htime)
    · have hne : ((parse_actions content.toList).map String.mk).isEmpty = false := by
        cases hp : parse_actions content.toList with
        | nil => exact absurd hp he
        | cons a rest => rfl
      cases hx : executeActionsAux ex ((parse_actions content.toList).map String.mk) [] 0 with
      | none =>
        have h1 : process_action ex diff m content
            = ((m.create_temp_node
                (String.mk (parse_tag content.toList ("thoughts".toList)))
                (String.intercalate "\n" ((parse_actions content.toList).map String.mk))
                (parseActionProperty (toLowerList (stripChars
                  (parse_tag content.toList ("property".toList)))))).1,
              PAOutcome.timeout) := by
          simp only [process_action]
          rw [hne, if_neg Bool.false_ne_true, hx]
        rw [h1]
        refine ⟨rfl, ?_, rfl, ?_⟩
        · exact congrArg OperationNode.observations (ActionManager.node_append_self m _)
        · intro j hj
          exact ActionManager.node_append_lt m _ j hj
      | some val =>
        exfalso
        obtain ⟨obs, rc⟩ := val
        have h1 : (process_action ex diff m content).2 = PAOutcome.ok obs rc := by
          simp only [process_action]
          rw [hne, if_neg Bool.false_ne_true, hx]
        rw [htime] at h1
        exact PAOutcome.noConfusion h1

/-- Concrete runs of the C2 amended theorem: a response with no `<action>`
leaves the state untouched; the timeout run leaves the pending node with no
observations and the sentinel intact. -/
theorem c2_witness :
    (process_action (fun _ => ExecResult.timeout) "" (ActionManager.init 3)
        "no action tags" = (ActionManager.init 3, PAOutcome.formatError)) ∧
    ((process_action (fun _ => ExecResult.timeout) "" (ActionManager.init 3)
        c2Content).1.temp_node = some 1) ∧
    (((process_action (fun _ => ExecResult.timeout) "" (ActionManager.init 3)
        c2Content).1.node 1).observations = []) ∧
    ((process_action (fun _ => ExecResult.timeout) "" (ActionManager.init 3)
        c2Content).1.node 0 = (ActionManager.init 3).node 0) := by
  have ha := c2_amended_process_action (fun _ => ExecResult.timeout) "" (ActionManager.init 3)
    "no action tags"
  have hb := c2_amended_process_action (fun _ => ExecResult.timeout) "" (ActionManager.init 3)
    c2Content
  have hb1 := hb.2 (by decide)
  exact ⟨ha.1 (by decide), hb1.1, hb1.2.1, hb1.2.2.2 0 (by decide)⟩

end DebugMaster
